import Mathlib

/-!
Verification of the npm-spider scanner (`spider.py`) against its
natural-language specification.

The embedding models strings as `List Char` (Python `str` is a sequence of
code points; Lean's `String.data` gives the same view).  Machine-level
concerns do not arise: the program manipulates lists, dictionaries
(modelled as insertion-ordered association lists, matching Python `dict`
semantics), JSON text and integer timestamps.

All definitions are structural or fuel-based so that every theorem can be
evaluated on concrete inputs by `decide`/`rfl`.
-/

namespace Spider

/-- Strings are modelled as their character sequences. -/
abbrev Str := List Char

/-! ## Python `str.replace` (used for deriving checkpoint / report paths)

`spider.py` line 289: `progress_file = input_file.replace('.xlsx', '-progress.json')`
`spider.py` lines 398-400: report path with a collision guard.

Python `str.replace(old, new)` substitutes every non-overlapping occurrence
of `old`, scanning left to right; after a match it continues after the
matched text.  The fuel argument (one unit per consumed character) makes the
recursion structural; `strReplace` supplies `s.length` fuel, which is enough
because every step consumes at least one character.  (Python's behaviour on
an empty pattern—inserting `new` between characters—is not modelled; the
program only ever replaces the non-empty pattern `'.xlsx'`.) -/
def strReplaceAux (pat repl : Str) : Nat → Str → Str
  | _, [] => []
  | 0, s => s
  | fuel + 1, c :: rest =>
    if pat.isPrefixOf (c :: rest) ∧ 1 ≤ pat.length then
      repl ++ strReplaceAux pat repl fuel ((c :: rest).drop pat.length)
    else
      c :: strReplaceAux pat repl fuel rest

def strReplace (pat repl s : Str) : Str :=
  strReplaceAux pat repl s.length s

/-- `occursIn pat s` holds iff `pat` occurs as a contiguous substring of `s`
(the condition under which Python `s.replace(pat, …)` changes anything). -/
def occursIn (pat : Str) : Str → Bool
  | [] => pat.isEmpty
  | c :: rest => pat.isPrefixOf (c :: rest) || occursIn pat rest

theorem strReplaceAux_of_not_occurs (pat repl : Str) :
    ∀ (fuel : Nat) (s : Str), occursIn pat s = false →
      strReplaceAux pat repl fuel s = s := by
  intro fuel
  induction fuel with
  | zero => intro s _; cases s <;> rfl
  | succ n ih =>
    intro s h
    cases s with
    | nil => rfl
    | cons c rest =>
      simp only [occursIn, Bool.or_eq_false_iff] at h
      simp only [strReplaceAux, h.1, false_and, if_false]
      exact congrArg (c :: ·) (ih rest h.2)

theorem strReplace_of_not_occurs (pat repl s : Str)
    (h : occursIn pat s = false) : strReplace pat repl s = s :=
  strReplaceAux_of_not_occurs pat repl s.length s h

/-! ## Derived file paths (`main`, lines 289 and 398-400) -/

/-- `spider.py` line 289: the checkpoint path derived from the input path. -/
def progressFileOf (input : Str) : Str :=
  strReplace ".xlsx".data "-progress.json".data input

/-- `spider.py` lines 398-400 (the identical guard also appears at lines
314-316): the report path, with a collision guard appending the suffix when
the substitution left the path unchanged. -/
def outputFileOf (input : Str) : Str :=
  let o := strReplace ".xlsx".data "-扫描结果.xlsx".data input
  if o = input then strReplace ".xlsx".data [] input ++ "-扫描结果.xlsx".data
  else o

/-- **C10.** For every input path that does not contain `.xlsx`, the derived
checkpoint path equals the input path itself (so a periodic checkpoint save
targets—and `save_progress` opens with mode `'w'`, hence overwrites—the
user's input file), while the report path does have a collision guard and
never equals the input path. -/
theorem checkpoint_path_collides_with_input (input : Str)
    (h : occursIn ".xlsx".data input = false) :
    progressFileOf input = input ∧ outputFileOf input ≠ input := by
  have hid : ∀ repl : Str, strReplace ".xlsx".data repl input = input :=
    fun repl => strReplace_of_not_occurs _ repl input h
  refine ⟨hid _, ?_⟩
  unfold outputFileOf
  simp only [hid, if_pos rfl]
  intro hcontra
  have hlen := congrArg List.length hcontra
  simp [List.length_append] at hlen

/-- Witness for C10 at the concrete input path `packages.xls`. -/
theorem checkpoint_path_collides_with_input_witness :
    occursIn ".xlsx".data "packages.xls".data = false ∧
      (progressFileOf "packages.xls".data = "packages.xls".data ∧
        outputFileOf "packages.xls".data ≠ "packages.xls".data) :=
  ⟨by decide, checkpoint_path_collides_with_input "packages.xls".data (by decide)⟩

/-! ## Timestamps

`filter_versions_last_year` (lines 78-113) parses each publish timestamp with
`datetime.fromisoformat(publish_time.replace('Z', '+00:00'))` and compares the
resulting instant against `datetime(2025,1,1, tzinfo=utc)` and
`datetime(2026,1,1, tzinfo=utc)`.  We model an aware datetime by its instant,
counted in microseconds since the Unix epoch.  Parsing a string that yields a
naive datetime (no UTC offset) is modelled as a parse failure, because the
subsequent aware-vs-naive comparison raises and the `except` clause skips the
entry — indistinguishable, at the filter's output, from a parse error. -/

/-- Days from the Unix epoch to the civil date `y-m-d` (Gregorian, valid for
`y ≥ 1`): the standard days-from-civil computation. -/
def daysFromCivil (y m d : Nat) : Int :=
  let yy := if m ≤ 2 then y - 1 else y
  let era := yy / 400
  let yoe := yy - era * 400
  let mp := (m + 9) % 12
  let doy := (153 * mp + 2) / 5 + d - 1
  let doe := yoe * 365 + yoe / 4 - yoe / 100 + doy
  ((era * 146097 + doe : Nat) : Int) - 719468

def isDigitCh (c : Char) : Bool := decide (48 ≤ c.toNat ∧ c.toNat ≤ 57)

def digitVal? (c : Char) : Option Nat :=
  if '0' ≤ c ∧ c ≤ '9' then some (c.toNat - 48) else none

def digitsToNat (ds : Str) : Nat :=
  ds.foldl (fun acc c => acc * 10 + (c.toNat - 48)) 0

def read2? : Str → Option (Nat × Str)
  | a :: b :: r =>
    match digitVal? a, digitVal? b with
    | some x, some y => some (x * 10 + y, r)
    | _, _ => none
  | _ => none

def read4? : Str → Option (Nat × Str)
  | a :: b :: c :: d :: r =>
    match digitVal? a, digitVal? b, digitVal? c, digitVal? d with
    | some x, some y, some z, some w => some (((x * 10 + y) * 10 + z) * 10 + w, r)
    | _, _, _, _ => none
  | _ => none

def expectChar (c : Char) : Str → Option Str
  | x :: r => if x = c then some r else none
  | [] => none

def isLeapYear (y : Nat) : Bool := decide ((y % 4 = 0 ∧ y % 100 ≠ 0) ∨ y % 400 = 0)

def daysInMonth (y m : Nat) : Nat :=
  if m = 2 then (if isLeapYear y then 29 else 28)
  else if m = 4 ∨ m = 6 ∨ m = 9 ∨ m = 11 then 30
  else 31

/-- Optional fractional-second part `.d{1,6}`, scaled to microseconds. -/
def fracMicro? (s : Str) : Option (Nat × Str) :=
  match s with
  | '.' :: r =>
    let ds := r.takeWhile isDigitCh
    if 1 ≤ ds.length ∧ ds.length ≤ 6 then
      some (digitsToNat ds * 10 ^ (6 - ds.length), r.dropWhile isDigitCh)
    else none
  | _ => some (0, s)

/-- UTC offset `±HH:MM` (must end the string), in signed microseconds. -/
def offsetMicro? : Str → Option Int
  | [] => none
  | sign :: r =>
    if sign = '+' ∨ sign = '-' then
      match read2? r with
      | none => none
      | some (oh, r1) =>
        match expectChar ':' r1 with
        | none => none
        | some r2 =>
          match read2? r2 with
          | none => none
          | some (om, r3) =>
            if r3 = [] ∧ oh ≤ 23 ∧ om ≤ 59 then
              some ((if sign = '-' then -1 else 1) * (((oh * 3600 + om * 60 : Nat) : Int) * 1000000))
            else none
    else none

/-- `datetime.fromisoformat` on `YYYY-MM-DD<sep>HH:MM:SS[.f{1,6}]±HH:MM`,
returning the instant in microseconds since the epoch.  The separator may be
any single character (as `fromisoformat` allows); a date-only string or one
without a UTC offset yields `none` (naive datetime: the aware comparison in
the filter raises and the entry is skipped). -/
def parseIsoAware (s : Str) : Option Int := do
  let (y, s1) ← read4? s
  let s2 ← expectChar '-' s1
  let (mo, s3) ← read2? s2
  let s4 ← expectChar '-' s3
  let (d, s5) ← read2? s4
  if 1 ≤ y ∧ 1 ≤ mo ∧ mo ≤ 12 ∧ 1 ≤ d ∧ d ≤ daysInMonth y mo then
    match s5 with
    | [] => none
    | _sep :: s6 => do
      let (h, s7) ← read2? s6
      let s8 ← expectChar ':' s7
      let (mi, s9) ← read2? s8
      let s10 ← expectChar ':' s9
      let (sec, s11) ← read2? s10
      if h ≤ 23 ∧ mi ≤ 59 ∧ sec ≤ 59 then do
        let (frac, s12) ← fracMicro? s11
        let off ← offsetMicro? s12
        some ((daysFromCivil y mo d * 86400 + ((h * 3600 + mi * 60 + sec : Nat) : Int)) * 1000000
          + ((frac : Nat) : Int) - off)
      else none
  else none

/-- Line 97: `datetime.fromisoformat(publish_time.replace('Z', '+00:00'))`,
as an instant. -/
def isoToEpochMicro? (pt : Str) : Option Int :=
  parseIsoAware (strReplace ['Z'] "+00:00".data pt)

/-- Line 84: `datetime(2025, 1, 1, 0, 0, 0, tzinfo=timezone.utc)`. -/
def year2025start : Int := daysFromCivil 2025 1 1 * 86400 * 1000000

/-- Line 86: `datetime(2026, 1, 1, 0, 0, 0, tzinfo=timezone.utc)`. -/
def year2025end : Int := daysFromCivil 2026 1 1 * 86400 * 1000000

/-! ## Version filter (`filter_versions_last_year`, lines 78-113) -/

/-- The `author` field of a per-version detail dict: absent, a JSON object
(with optional `name` sub-field), a plain string, or any other JSON value
(carried by its Python `str(...)` form). -/
inductive AuthorField where
  | absent : AuthorField
  | plain (s : Str) : AuthorField
  | record (name? : Option Str) : AuthorField
  | other (strForm : Str) : AuthorField
deriving DecidableEq

/-- One entry of the raw metadata's `versions` map. -/
structure VersionDetail where
  description : Option Str
  author : AuthorField
  dependencies : Option (List Str)
deriving DecidableEq

/-- The raw registry metadata as consumed by the filter: the `time` map
(version → publish timestamp) and the `versions` map (version → detail).
`none` for a missing key; `Option RawMetadata` as the filter input covers a
`None`/falsy `package_data`. -/
structure RawMetadata where
  time : Option (List (Str × Str))
  versions : Option (List (Str × VersionDetail))
deriving DecidableEq

/-- One record of the filter's output (the dict built at lines 100-106). -/
structure VersionInfo where
  version : Str
  publish_time : Str
  description : Str
  author : Str
  dependencies : Nat
deriving DecidableEq

/-- Python `dict` lookup (keys are unique in a `dict`). -/
def dictGet : List (Str × α) → Str → Option α
  | [], _ => none
  | (k', v) :: rest, k => if k' = k then some v else dictGet rest k

/-- Line 104: author-name extraction from the detail dict. -/
def authorName : AuthorField → Str
  | .absent => []
  | .plain s => s
  | .record n => n.getD []
  | .other f => f

def defaultDetail : VersionDetail := ⟨none, .absent, none⟩

/-- Lines 99-106: the output record built for a qualifying version. -/
def versionEntry (versions : List (Str × VersionDetail)) (v pt : Str) : VersionInfo :=
  let vd := (dictGet versions v).getD defaultDetail
  { version := v
    publish_time := pt
    description := vd.description.getD []
    author := authorName vd.author
    dependencies := (vd.dependencies.getD []).length }

/-- The per-entry body of the loop at lines 92-109: skip the sentinel
pseudo-versions, skip parse failures, keep timestamps in the half-open
window. -/
def passEntry (versions : List (Str × VersionDetail)) (winStart winEnd : Int)
    (e : Str × Str) : Option VersionInfo :=
  if e.1 = "created".data ∨ e.1 = "modified".data then none
  else
    match isoToEpochMicro? e.2 with
    | none => none
    | some t =>
      if winStart ≤ t ∧ t < winEnd then some (versionEntry versions e.1 e.2) else none

def filterPass (versions : List (Str × VersionDetail)) (winStart winEnd : Int)
    (timeInfo : List (Str × Str)) : List VersionInfo :=
  timeInfo.filterMap (passEntry versions winStart winEnd)

/-- Lexicographic (code-point) string comparison, as Python `str` `<=`. -/
def lexLe : Str → Str → Bool
  | [], _ => true
  | _ :: _, [] => false
  | a :: s1, b :: s2 => if a < b then true else if b < a then false else lexLe s1 s2

/-- Stable descending insertion by `publish_time` (Python
`list.sort(key=…, reverse=True)` is a stable descending sort; stable sorts
by the same key are extensionally unique, so stable insertion is the same
function as timsort here). -/
def insertDesc (x : VersionInfo) : List VersionInfo → List VersionInfo
  | [] => [x]
  | y :: rest =>
    if lexLe x.publish_time y.publish_time then y :: insertDesc x rest
    else x :: y :: rest

def sortByTimeDesc (l : List VersionInfo) : List VersionInfo :=
  l.foldl (fun acc x => insertDesc x acc) []

/-- `filter_versions_last_year` (lines 78-113), with the window bounds
hardcoded exactly as in the source. -/
def filter_versions_last_year (pd : Option RawMetadata) : List VersionInfo :=
  match pd with
  | none => []
  | some d =>
    match d.time with
    | none => []
    | some timeInfo =>
      sortByTimeDesc (filterPass (d.versions.getD []) year2025start year2025end timeInfo)

theorem mem_insertDesc (x a : VersionInfo) (l : List VersionInfo) :
    x ∈ insertDesc a l ↔ x = a ∨ x ∈ l := by
  induction l with
  | nil => simp [insertDesc]
  | cons y rest ih =>
    simp only [insertDesc]
    split
    · simp only [List.mem_cons, ih]
      tauto
    · simp only [List.mem_cons]

theorem mem_sortFold (l acc : List VersionInfo) (x : VersionInfo) :
    x ∈ l.foldl (fun acc x => insertDesc x acc) acc ↔ x ∈ acc ∨ x ∈ l := by
  induction l generalizing acc with
  | nil => simp
  | cons a rest ih =>
    simp only [List.foldl_cons, ih, mem_insertDesc, List.mem_cons]
    tauto

theorem mem_sortByTimeDesc (l : List VersionInfo) (x : VersionInfo) :
    x ∈ sortByTimeDesc l ↔ x ∈ l := by
  simpa [sortByTimeDesc] using mem_sortFold l [] x

theorem passEntry_eq_some (versions : List (Str × VersionDetail)) (ws we : Int)
    (e : Str × Str) (out : VersionInfo) :
    passEntry versions ws we e = some out ↔
      (e.1 ≠ "created".data ∧ e.1 ≠ "modified".data ∧
        ∃ t, isoToEpochMicro? e.2 = some t ∧ ws ≤ t ∧ t < we ∧
          out = versionEntry versions e.1 e.2) := by
  by_cases hs : (e.1 = "created".data ∨ e.1 = "modified".data)
  · simp only [passEntry, if_pos hs]
    constructor
    · intro h; cases h
    · rintro ⟨h1, h2, -⟩
      rcases hs with hs | hs
      · exact absurd hs h1
      · exact absurd hs h2
  · push_neg at hs
    simp only [passEntry, if_neg (by tauto : ¬(e.1 = "created".data ∨ e.1 = "modified".data))]
    rcases hp : isoToEpochMicro? e.2 with _ | t
    · simp [hp]
    · simp only [hp]
      by_cases hw : (ws ≤ t ∧ t < we)
      · simp only [if_pos hw, Option.some.injEq]
        constructor
        · rintro rfl
          exact ⟨hs.1, hs.2, t, rfl, hw.1, hw.2, rfl⟩
        · rintro ⟨-, -, t', ht', -, -, h⟩
          exact h.symm
      · simp only [if_neg hw]
        constructor
        · intro h; cases h
        · rintro ⟨-, -, t', ht', hw1, hw2, -⟩
          rw [Option.some.injEq] at ht'
          exact absurd ⟨hw1, hw2⟩ (ht' ▸ hw)

theorem dict_keys_unique {α : Type} {l : List (Str × α)} (h : (l.map Prod.fst).Nodup)
    {k : Str} {a b : α} (ha : (k, a) ∈ l) (hb : (k, b) ∈ l) : a = b := by
  induction l with
  | nil => cases ha
  | cons p rest ih =>
    rw [List.map_cons, List.nodup_cons] at h
    rcases List.mem_cons.mp ha with ha1 | ha2 <;> rcases List.mem_cons.mp hb with hb1 | hb2
    · rw [← ha1] at hb1
      exact (Prod.mk.injEq _ _ _ _ ▸ hb1).2.symm
    · exact absurd (List.mem_map_of_mem Prod.fst hb2)
        (by rw [← ha1] at h; exact h.1)
    · exact absurd (List.mem_map_of_mem Prod.fst ha2)
        (by rw [← hb1] at h; exact h.1)
    · exact ih h.2 ha2 hb2

/-- **C6.** For every raw-metadata input and every version entry of its
timestamp map whose key is not a sentinel pseudo-version and whose timestamp
parses to the instant `t`, the entry appears in the filter's output iff
`windowStart ≤ t < windowEnd` (boundary at the start included, at the end
excluded). -/
theorem filter_halfopen_boundary (d : RawMetadata) (timeInfo : List (Str × Str))
    (v ts : Str) (t : Int)
    (htime : d.time = some timeInfo)
    (hnodup : (timeInfo.map Prod.fst).Nodup)
    (hmem : (v, ts) ∈ timeInfo)
    (hc : v ≠ "created".data) (hm : v ≠ "modified".data)
    (hparse : isoToEpochMicro? ts = some t) :
    (∃ e ∈ filter_versions_last_year (some d), e.version = v) ↔
      (year2025start ≤ t ∧ t < year2025end) := by
  have hred : filter_versions_last_year (some d) =
      sortByTimeDesc (filterPass (d.versions.getD []) year2025start year2025end timeInfo) := by
    rw [filter_versions_last_year, htime]
  rw [hred]
  constructor
  · rintro ⟨e, he, hv⟩
    rw [mem_sortByTimeDesc] at he
    obtain ⟨entry, hentry, hpass⟩ := List.mem_filterMap.mp he
    rw [passEntry_eq_some] at hpass
    obtain ⟨h1, h2, t', hp', hw1, hw2, rfl⟩ := hpass
    have hv1 : entry.1 = v := by simpa [versionEntry] using hv
    have hpair : entry = (v, entry.2) := by
      cases entry
      simpa using hv1
    have hts : entry.2 = ts := dict_keys_unique hnodup (hpair ▸ hentry) hmem
    rw [hts, hparse, Option.some.injEq] at hp'
    exact hp' ▸ ⟨hw1, hw2⟩
  · rintro ⟨hw1, hw2⟩
    refine ⟨versionEntry (d.versions.getD []) v ts, ?_, by simp [versionEntry]⟩
    rw [mem_sortByTimeDesc]
    exact List.mem_filterMap.mpr
      ⟨(v, ts), hmem, (passEntry_eq_some _ _ _ _ _).mpr ⟨hc, hm, t, hparse, hw1, hw2, rfl⟩⟩

/-- Concrete timestamp `2025-03-01T10:00:00.000Z` (instant `1740823200000000`
μs since the epoch, inside the 2025 window). -/
def tsMar2025 : Str := "2025-03-01T10:00:00.000Z".data

/-- Concrete raw metadata: one version `1.0.0` published at `tsMar2025`. -/
def pdMar2025 : RawMetadata := ⟨some [("1.0.0".data, tsMar2025)], none⟩

/-- Witness for C6 at the concrete metadata input `pdMar2025`. -/
theorem filter_halfopen_boundary_witness :
    (pdMar2025.time = some [("1.0.0".data, tsMar2025)] ∧
      isoToEpochMicro? tsMar2025 = some 1740823200000000) ∧
    ((∃ e ∈ filter_versions_last_year (some pdMar2025), e.version = "1.0.0".data) ↔
      (year2025start ≤ 1740823200000000 ∧ (1740823200000000 : Int) < year2025end)) :=
  ⟨⟨rfl, by decide⟩,
    filter_halfopen_boundary pdMar2025 [("1.0.0".data, tsMar2025)] "1.0.0".data
      tsMar2025 1740823200000000 rfl (by decide) (by decide)
      (by decide) (by decide) (by decide)⟩

/-- Modelled from the spec: membership in the "rolling last 365 days from
`now`" window variant, which the spec says must be selectable by
configuration. -/
def inRollingWindow (now t : Int) : Prop :=
  now - 365 * 86400 * 1000000 ≤ t ∧ t < now

/-- A run date in mid-2025 (`2025-06-30T00:00:00Z`), as an instant. -/
def nowMid2025 : Int := daysFromCivil 2025 6 30 * 86400 * 1000000

/-- **C7, counterexample.** The filter has no window configuration: a version
published `2024-12-31T12:00:00Z` lies inside the rolling last-365-days
window of a mid-2025 run date, yet the filter (which takes only the raw
metadata — no configuration argument exists in the source) unconditionally
excludes it.  The "rolling last 365 days" variant is therefore not
selectable by any configuration. -/
theorem rolling_window_not_selectable :
    isoToEpochMicro? "2024-12-31T12:00:00.000Z".data = some 1735646400000000 ∧
    inRollingWindow nowMid2025 1735646400000000 ∧
    filter_versions_last_year
      (some (⟨some [("0.9.0".data, "2024-12-31T12:00:00.000Z".data)], none⟩ :
        RawMetadata)) = [] := by
  refine ⟨by decide, ⟨by decide, by decide⟩, by decide⟩

/-- **C7, amended.** The filter's window is hardcoded: for every input and
every record in the filter's output, the record's timestamp parses to an
instant in the fixed calendar-2025 window `[2025-01-01, 2026-01-01)` UTC.
Only the fixed-calendar-year variant is implemented; no configuration can
select another window. -/
theorem filter_window_is_hardcoded (pd : Option RawMetadata) (e : VersionInfo)
    (he : e ∈ filter_versions_last_year pd) :
    ∃ t, isoToEpochMicro? e.publish_time = some t ∧
      year2025start ≤ t ∧ t < year2025end := by
  rcases pd with _ | d
  · cases he
  · rcases htime : d.time with _ | timeInfo
    · rw [filter_versions_last_year, htime] at he
      cases he
    · rw [filter_versions_last_year, htime, mem_sortByTimeDesc] at he
      obtain ⟨entry, -, hpass⟩ := List.mem_filterMap.mp he
      rw [passEntry_eq_some] at hpass
      obtain ⟨-, -, t, hp, hw1, hw2, rfl⟩ := hpass
      exact ⟨t, by simpa [versionEntry] using hp, hw1, hw2⟩

/-- The single record the filter produces from `pdMar2025`. -/
def entryMar2025 : VersionInfo := ⟨"1.0.0".data, tsMar2025, [], [], 0⟩

/-- Witness for the amended C7 at a concrete output record. -/
theorem filter_window_is_hardcoded_witness :
    entryMar2025 ∈ filter_versions_last_year (some pdMar2025) ∧
    ∃ t, isoToEpochMicro? entryMar2025.publish_time = some t ∧
      year2025start ≤ t ∧ t < year2025end :=
  ⟨by decide, filter_window_is_hardcoded (some pdMar2025) entryMar2025 (by decide)⟩

/-! ## Registry client (`get_package_versions`, lines 61-75)

The single `requests.get` call either fails at the transport level
(`requests.exceptions.RequestException`: DNS failure, timeout, connection
error, too many redirects, …) or yields a final response (redirects already
followed) with a status code and a body.  `response.raise_for_status()`
raises `HTTPError` — a `RequestException` — exactly for statuses in
`[400, 600)`; `response.json()` on an unparseable body raises
`requests.exceptions.JSONDecodeError`, also a `RequestException` (requests
≥ 2.27); the `except requests.exceptions.RequestException` clause converts
all of these to `None`. -/

inductive HttpBody where
  | parsed (metadata : RawMetadata) : HttpBody
  | malformed (raw : Str) : HttpBody
deriving DecidableEq

inductive HttpOutcome where
  | transportError (cause : Str) : HttpOutcome
  | response (status : Nat) (body : HttpBody) : HttpOutcome
deriving DecidableEq

/-- `get_package_versions` as a function of the network outcome (the package
name, token and proxy configuration only shape the request, not the
error-conversion logic at this boundary). -/
def get_package_versions (outcome : HttpOutcome) : Option RawMetadata :=
  match outcome with
  | .transportError _ => none
  | .response status body =>
    if 400 ≤ status ∧ status < 600 then none
    else
      match body with
      | .parsed md => some md
      | .malformed _ => none

def is2xx (status : Nat) : Prop := 200 ≤ status ∧ status < 300

def emptyMetadata : RawMetadata := ⟨none, none⟩

/-- **C8, counterexample.** A final response with the non-2xx status 300 and
a JSON body is returned as metadata, not converted to the failure marker:
`raise_for_status` only raises for statuses in `[400, 600)`, so "any non-2xx
HTTP status … is converted to the Failure result" is false. -/
theorem non_2xx_not_always_failure :
    ¬ is2xx 300 ∧
      get_package_versions (.response 300 (.parsed emptyMetadata)) = some emptyMetadata := by
  exact ⟨by simp [is2xx], rfl⟩

/-- **C8, amended.** The fetch is a total function of the network outcome
(no exception escapes the boundary), and it returns metadata exactly when
the final response has a status outside `[400, 600)` and a body that parses
as JSON; every transport error, every 4xx/5xx status, and every malformed
body yields the failure marker `None`. -/
theorem fetch_failure_boundary (o : HttpOutcome) :
    (get_package_versions o).isSome ↔
      ∃ st md, o = .response st (.parsed md) ∧ ¬(400 ≤ st ∧ st < 600) := by
  rcases o with cause | ⟨st, body⟩
  · simp [get_package_versions]
  · rcases body with md | raw
    · by_cases h : (400 ≤ st ∧ st < 600)
      · simp [get_package_versions, if_pos h, h]
      · simp only [get_package_versions, if_neg h, Option.isSome_some, true_iff]
        exact ⟨st, md, rfl, h⟩
    · by_cases h : (400 ≤ st ∧ st < 600) <;>
        simp [get_package_versions, h]

/-! ## Scan Coordinator (`main`, lines 288-412)

The collection loop (lines 354-373) is driven by `as_completed`: one
`Completion` per submitted future, in an arbitrary order.  `cancelAt = some
k` models an execution in which the cooperative interrupt flag is first
observed at the top-of-loop check number `k` (0-based; `k ≥` the number of
completions means it is observed only by the post-loop check at line 376);
`cancelAt = none` models a run in which the flag is never set before the
post-loop check.  The flag, once set, stays set (`threading.Event`). -/

/-- A results-map value: `None` (lookup failed) or the filtered version
list. -/
abbrev PkgResult := Option (List VersionInfo)

abbrev ResultsMap := List (Str × PkgResult)

/-- Python `dict` assignment `d[k] = v`: replace in place if the key is
present (insertion order kept), else append. -/
def dictInsert : List (Str × α) → Str → α → List (Str × α)
  | [], k, v => [(k, v)]
  | (k', v') :: rest, k, v =>
    if k' = k then (k, v) :: rest else (k', v') :: dictInsert rest k v

/-- The checkpoint document contents (`save_progress`, lines 146-154). -/
structure ProgressData where
  scanned_packages : List Str
  all_packages : List Str
  results : ResultsMap
deriving DecidableEq

/-- How `future.result()` behaves for one completion: a normal return
carrying the task's `(package_name, result)` pair, or an exception (the
`except` branch of the collection loop, lines 368-373). -/
inductive TaskOutcome where
  | ok (r : PkgResult) : TaskOutcome
  | exn : TaskOutcome
deriving DecidableEq

structure Completion where
  pkg : Str
  outcome : TaskOutcome
deriving DecidableEq

/-- The value stored into `results` for a completion: the task's result on
a normal return, `None` on the exception branch (line 370). -/
def outcomeResult : TaskOutcome → PkgResult
  | .ok r => r
  | .exn => none

structure LoopState where
  results : ResultsMap
  scanned : List Str
  saves : List ProgressData
deriving DecidableEq

/-- One iteration body of the collection loop: store the result, append to
`scanned_packages`, and — on the normal branch only — save the progress
when `len(scanned_packages) % 10 == 0` (lines 360-373). -/
def applyCompletion (allPkgs : List Str) (st : LoopState) (c : Completion) : LoopState :=
  match c.outcome with
  | .ok r =>
    let results := dictInsert st.results c.pkg r
    let scanned := st.scanned ++ [c.pkg]
    if scanned.length % 10 = 0 then
      ⟨results, scanned, st.saves ++ [⟨scanned, allPkgs, results⟩]⟩
    else
      ⟨results, scanned, st.saves⟩
  | .exn =>
    ⟨dictInsert st.results c.pkg none, st.scanned ++ [c.pkg], st.saves⟩

def flagObservedAt (cancelAt : Option Nat) (i : Nat) : Bool :=
  match cancelAt with
  | none => false
  | some k => decide (k ≤ i)

/-- The collection loop (lines 354-373): check the interrupt flag at the top
of each iteration (line 356) and break if it is set; otherwise apply the
next completion. -/
def collectLoop (allPkgs : List Str) (cancelAt : Option Nat) :
    Nat → List Completion → LoopState → LoopState
  | _, [], st => st
  | i, c :: rest, st =>
    if flagObservedAt cancelAt i then st
    else collectLoop allPkgs cancelAt (i + 1) rest (applyCompletion allPkgs st c)

/-- Line 303: the pending list after an accepted resume (`[pkg for pkg in
packages if pkg not in scanned_packages]`); the full input list otherwise. -/
def pendingOf (packages : List Str) (saved : Option ProgressData)
    (resumeAccept : Bool) : List Str :=
  match saved with
  | some sp =>
    if resumeAccept then packages.filter (fun p => decide (p ∉ sp.scanned_packages))
    else packages
  | none => packages

/-- Lines 290-302: the `results` dict seeded from an accepted resume. -/
def initResultsOf (saved : Option ProgressData) (resumeAccept : Bool) : ResultsMap :=
  match saved with
  | some sp => if resumeAccept then sp.results else []
  | none => []

/-- Lines 291-302: the `scanned_packages` list seeded from an accepted
resume. -/
def initScannedOf (saved : Option ProgressData) (resumeAccept : Bool) : List Str :=
  match saved with
  | some sp => if resumeAccept then sp.scanned_packages else []
  | none => []

/-- Observable outcome of one `main` run from the point the checkpoint has
been loaded (line 293) to process exit. -/
structure RunOutcome where
  pending : List Str
  submitted : List Str
  finalResults : ResultsMap
  finalScanned : List Str
  saves : List ProgressData
  removedEarly : Bool
  removedAfterLoop : Bool
  reportWritten : Bool
  exitCode : Nat
deriving DecidableEq

/-- `main`, lines 288-412: resume seeding, the early all-done path (lines
309-328), task submission (one future per pending package, line 348), the
collection loop, the interrupt save (lines 376-381) or the natural-completion
checkpoint deletion (line 384), and the report/exit behaviour.
`all_packages_original` (line 335) re-reads the same input file and therefore
equals `packages`. -/
def declineRemovedOf (saved : Option ProgressData) (resumeAccept : Bool) : Bool :=
  match saved with
  | some _ => !resumeAccept
  | none => false

def runScan (packages : List Str) (saved : Option ProgressData) (resumeAccept : Bool)
    (completions : List Completion) (cancelAt : Option Nat) : RunOutcome :=
  let results0 := initResultsOf saved resumeAccept
  let scanned0 := initScannedOf saved resumeAccept
  let declineRemoved := declineRemovedOf saved resumeAccept
  let pending := pendingOf packages saved resumeAccept
  if pending = [] then
    { pending := pending, submitted := [], finalResults := results0,
      finalScanned := scanned0, saves := [], removedEarly := true,
      removedAfterLoop := false, reportWritten := true, exitCode := 0 }
  else
    let st := collectLoop packages cancelAt 0 completions ⟨results0, scanned0, []⟩
    if cancelAt.isSome then
      { pending := pending, submitted := pending, finalResults := st.results,
        finalScanned := st.scanned,
        saves := st.saves ++ [⟨st.scanned, packages, st.results⟩],
        removedEarly := declineRemoved, removedAfterLoop := false,
        reportWritten := false, exitCode := 0 }
    else
      { pending := pending, submitted := pending, finalResults := st.results,
        finalScanned := st.scanned, saves := st.saves,
        removedEarly := declineRemoved, removedAfterLoop := true,
        reportWritten := true, exitCode := 0 }

/-- Number of completions the loop applies before stopping. -/
def processedFrom (cancelAt : Option Nat) (i len : Nat) : Nat :=
  match cancelAt with
  | none => len
  | some k => min (k - i) len

def processedCount (cancelAt : Option Nat) (len : Nat) : Nat :=
  processedFrom cancelAt 0 len

/-- `scanned_packages` after the first `n` completions. -/
def scannedAfter (scanned0 : List Str) (completions : List Completion) (n : Nat) : List Str :=
  scanned0 ++ (completions.take n).map Completion.pkg

/-- `results` after the first `n` completions. -/
def resultsAfter (results0 : ResultsMap) (completions : List Completion) (n : Nat) : ResultsMap :=
  (completions.take n).foldl (fun r c => dictInsert r c.pkg (outcomeResult c.outcome)) results0

/-- The saves the loop performs when no completion raises: one snapshot at
every completion where the cumulative scanned count reaches a multiple of
10. -/
def cadenceSaves (allPkgs : List Str) : ResultsMap → List Str → List Completion → List ProgressData
  | _, _, [] => []
  | r0, s0, c :: rest =>
    let r1 := dictInsert r0 c.pkg (outcomeResult c.outcome)
    let s1 := s0 ++ [c.pkg]
    (if s1.length % 10 = 0 then [⟨s1, allPkgs, r1⟩] else []) ++ cadenceSaves allPkgs r1 s1 rest

theorem applyCompletion_results (allPkgs : List Str) (st : LoopState) (c : Completion) :
    (applyCompletion allPkgs st c).results
      = dictInsert st.results c.pkg (outcomeResult c.outcome) := by
  rcases c with ⟨pkg, o⟩
  rcases o with r | _
  · simp only [applyCompletion, outcomeResult]
    split <;> rfl
  · rfl

theorem applyCompletion_scanned (allPkgs : List Str) (st : LoopState) (c : Completion) :
    (applyCompletion allPkgs st c).scanned = st.scanned ++ [c.pkg] := by
  rcases c with ⟨pkg, o⟩
  rcases o with r | _
  · simp only [applyCompletion]
    split <;> rfl
  · rfl

theorem resultsAfter_cons (r0 : ResultsMap) (c : Completion) (rest : List Completion) (n : Nat) :
    resultsAfter r0 (c :: rest) (n + 1)
      = resultsAfter (dictInsert r0 c.pkg (outcomeResult c.outcome)) rest n := by
  simp [resultsAfter, List.take_succ_cons]

theorem scannedAfter_cons (s0 : List Str) (c : Completion) (rest : List Completion) (n : Nat) :
    scannedAfter s0 (c :: rest) (n + 1) = scannedAfter (s0 ++ [c.pkg]) rest n := by
  simp [scannedAfter, List.take_succ_cons]

theorem collectLoop_results_scanned (allPkgs : List Str) (cancelAt : Option Nat) :
    ∀ (completions : List Completion) (i : Nat) (st : LoopState),
      (collectLoop allPkgs cancelAt i completions st).results
          = resultsAfter st.results completions (processedFrom cancelAt i completions.length) ∧
        (collectLoop allPkgs cancelAt i completions st).scanned
          = scannedAfter st.scanned completions (processedFrom cancelAt i completions.length) := by
  intro completions
  induction completions with
  | nil =>
    intro i st
    rcases cancelAt with _ | k <;>
      simp [collectLoop, processedFrom, resultsAfter, scannedAfter]
  | cons c rest ih =>
    intro i st
    rcases cancelAt with _ | k
    · have hflag : flagObservedAt none i = false := rfl
      simp only [collectLoop, hflag, if_false, Bool.false_eq_true]
      have h := ih (i + 1) (applyCompletion allPkgs st c)
      simp only [processedFrom] at h ⊢
      rw [h.1, h.2, applyCompletion_results, applyCompletion_scanned,
        List.length_cons, resultsAfter_cons, scannedAfter_cons]
      exact ⟨rfl, rfl⟩
    · by_cases hk : k ≤ i
      · have hflag : flagObservedAt (some k) i = true := by
          simp [flagObservedAt, hk]
        have hn : processedFrom (some k) i (rest.length + 1) = 0 := by
          simp only [processedFrom]
          omega
        simp [collectLoop, hflag, hn, resultsAfter, scannedAfter]
      · have hflag : flagObservedAt (some k) i = false := by
          simp [flagObservedAt, hk]
        simp only [collectLoop, hflag, if_false, Bool.false_eq_true]
        have h := ih (i + 1) (applyCompletion allPkgs st c)
        have hn : processedFrom (some k) i (c :: rest).length
            = processedFrom (some k) (i + 1) rest.length + 1 := by
          simp only [processedFrom, List.length_cons]
          omega
        rw [h.1, h.2, applyCompletion_results, applyCompletion_scanned, hn,
          resultsAfter_cons, scannedAfter_cons]
        exact ⟨rfl, rfl⟩

theorem collectLoop_saves_ok (allPkgs : List Str) :
    ∀ (completions : List Completion) (i : Nat) (st : LoopState),
      (∀ c ∈ completions, c.outcome ≠ TaskOutcome.exn) →
      (collectLoop allPkgs none i completions st).saves
        = st.saves ++ cadenceSaves allPkgs st.results st.scanned completions := by
  intro completions
  induction completions with
  | nil => intro i st _; simp [collectLoop, cadenceSaves]
  | cons c rest ih =>
    intro i st hok
    have hflag : flagObservedAt none i = false := rfl
    simp only [collectLoop, hflag, if_false, Bool.false_eq_true]
    rcases hc : c.outcome with r | _
    · have happ : applyCompletion allPkgs st c =
          ⟨dictInsert st.results c.pkg (outcomeResult c.outcome), st.scanned ++ [c.pkg],
            st.saves ++ (if (st.scanned ++ [c.pkg]).length % 10 = 0 then
              [⟨st.scanned ++ [c.pkg], allPkgs, dictInsert st.results c.pkg (outcomeResult c.outcome)⟩]
              else [])⟩ := by
        rcases c with ⟨pkg, o⟩
        cases hc
        simp only [applyCompletion, outcomeResult]
        split <;> simp_all
      rw [ih (i + 1) _ (fun d hd => hok d (List.mem_cons_of_mem c hd)), happ]
      simp only [cadenceSaves, List.append_assoc]
    · exact absurd hc (hok c (List.mem_cons_self c rest))

theorem dictGet_insert_ne {α : Type} (l : List (Str × α)) (k P : Str) (v : α)
    (h : k ≠ P) : dictGet (dictInsert l k v) P = dictGet l P := by
  induction l with
  | nil => simp [dictInsert, dictGet, h]
  | cons p rest ih =>
    rcases p with ⟨k', v'⟩
    by_cases hk : k' = k
    · subst hk
      simp [dictInsert, dictGet, h]
    · simp only [dictInsert, if_neg hk]
      by_cases hp : k' = P
      · simp [dictGet, hp]
      · simp [dictGet, hp, ih]

theorem dictGet_resultsAfter_ne (r0 : ResultsMap) (P : Str) :
    ∀ (completions : List Completion) (n : Nat),
      (∀ c ∈ completions, c.pkg ≠ P) →
      dictGet (resultsAfter r0 completions n) P = dictGet r0 P := by
  intro completions
  induction completions generalizing r0 with
  | nil => intro n _; simp [resultsAfter]
  | cons c rest ih =>
    intro n hne
    cases n with
    | zero => simp [resultsAfter]
    | succ m =>
      rw [resultsAfter_cons]
      rw [ih _ m (fun d hd => hne d (List.mem_cons_of_mem c hd))]
      exact dictGet_insert_ne _ _ _ _ (hne c (List.mem_cons_self c rest))

theorem pendingOf_subset (packages : List Str) (saved : Option ProgressData)
    (resumeAccept : Bool) {p : Str} (hp : p ∈ pendingOf packages saved resumeAccept) :
    p ∈ packages := by
  rcases saved with _ | sp
  · exact hp
  · rcases resumeAccept with _ | _
    · exact hp
    · exact (List.mem_filter.mp hp).1

theorem pendingOf_not_init (packages : List Str) (saved : Option ProgressData)
    (resumeAccept : Bool) {p : Str} (hp : p ∈ pendingOf packages saved resumeAccept) :
    p ∉ initScannedOf saved resumeAccept := by
  rcases saved with _ | sp
  · simp [initScannedOf]
  · rcases resumeAccept with _ | _
    · simp [initScannedOf]
    · have := (List.mem_filter.mp hp).2
      simpa [initScannedOf] using of_decide_eq_true this

theorem pendingOf_nodup (packages : List Str) (saved : Option ProgressData)
    (resumeAccept : Bool) (h : packages.Nodup) :
    (pendingOf packages saved resumeAccept).Nodup := by
  rcases saved with _ | sp
  · exact h
  · rcases resumeAccept with _ | _
    · exact h
    · exact h.filter _

theorem runScan_empty_eq (packages : List Str) (saved : Option ProgressData)
    (resumeAccept : Bool) (completions : List Completion) (cancelAt : Option Nat)
    (hpend : pendingOf packages saved resumeAccept = []) :
    runScan packages saved resumeAccept completions cancelAt
      = { pending := pendingOf packages saved resumeAccept, submitted := [],
          finalResults := initResultsOf saved resumeAccept,
          finalScanned := initScannedOf saved resumeAccept, saves := [],
          removedEarly := true, removedAfterLoop := false,
          reportWritten := true, exitCode := 0 } := by
  simp only [runScan]
  rw [if_pos hpend]

theorem runScan_cancel_eq (packages : List Str) (saved : Option ProgressData)
    (resumeAccept : Bool) (completions : List Completion) (k : Nat)
    (hpend : pendingOf packages saved resumeAccept ≠ []) :
    runScan packages saved resumeAccept completions (some k)
      = { pending := pendingOf packages saved resumeAccept,
          submitted := pendingOf packages saved resumeAccept,
          finalResults := (collectLoop packages (some k) 0 completions
            ⟨initResultsOf saved resumeAccept, initScannedOf saved resumeAccept, []⟩).results,
          finalScanned := (collectLoop packages (some k) 0 completions
            ⟨initResultsOf saved resumeAccept, initScannedOf saved resumeAccept, []⟩).scanned,
          saves := (collectLoop packages (some k) 0 completions
            ⟨initResultsOf saved resumeAccept, initScannedOf saved resumeAccept, []⟩).saves
            ++ [⟨(collectLoop packages (some k) 0 completions
                ⟨initResultsOf saved resumeAccept, initScannedOf saved resumeAccept, []⟩).scanned,
              packages,
              (collectLoop packages (some k) 0 completions
                ⟨initResultsOf saved resumeAccept, initScannedOf saved resumeAccept, []⟩).results⟩],
          removedEarly := declineRemovedOf saved resumeAccept,
          removedAfterLoop := false, reportWritten := false, exitCode := 0 } := by
  simp only [runScan]
  rw [if_neg hpend]
  rfl

theorem runScan_nocancel_eq (packages : List Str) (saved : Option ProgressData)
    (resumeAccept : Bool) (completions : List Completion)
    (hpend : pendingOf packages saved resumeAccept ≠ []) :
    runScan packages saved resumeAccept completions none
      = { pending := pendingOf packages saved resumeAccept,
          submitted := pendingOf packages saved resumeAccept,
          finalResults := (collectLoop packages none 0 completions
            ⟨initResultsOf saved resumeAccept, initScannedOf saved resumeAccept, []⟩).results,
          finalScanned := (collectLoop packages none 0 completions
            ⟨initResultsOf saved resumeAccept, initScannedOf saved resumeAccept, []⟩).scanned,
          saves := (collectLoop packages none 0 completions
            ⟨initResultsOf saved resumeAccept, initScannedOf saved resumeAccept, []⟩).saves,
          removedEarly := declineRemovedOf saved resumeAccept,
          removedAfterLoop := true, reportWritten := true, exitCode := 0 } := by
  simp only [runScan]
  rw [if_neg hpend]
  rfl

/-- Cumulative scanned counts at which the loop saves, as a pure numeric
recursion. -/
def lengthSaves : Nat → Nat → List Nat
  | _, 0 => []
  | base, n + 1 => (if (base + 1) % 10 = 0 then [base + 1] else []) ++ lengthSaves (base + 1) n

theorem lengthSaves_eq : ∀ (n base : Nat),
    lengthSaves base n
      = ((List.range n).map (fun i => base + i + 1)).filter (fun m => m % 10 == 0) := by
  intro n
  induction n with
  | zero => intro base; simp [lengthSaves]
  | succ m ih =>
    intro base
    have hfun : ((fun i => base + i + 1) ∘ Nat.succ) = (fun i => (base + 1) + i + 1) := by
      funext i
      simp only [Function.comp]
      omega
    rw [lengthSaves, List.range_succ_eq_map, List.map_cons, List.map_map, hfun,
      List.filter_cons, ih (base + 1)]
    by_cases h : (base + 1) % 10 = 0
    · simp [h]
    · simp [h]

theorem cadenceSaves_map_length (allPkgs : List Str) :
    ∀ (completions : List Completion) (r0 : ResultsMap) (s0 : List Str),
      (cadenceSaves allPkgs r0 s0 completions).map (fun pd => pd.scanned_packages.length)
        = lengthSaves s0.length completions.length := by
  intro completions
  induction completions with
  | nil => intro r0 s0; simp [cadenceSaves, lengthSaves]
  | cons c rest ih =>
    intro r0 s0
    simp only [cadenceSaves, List.map_append, ih, List.length_cons, lengthSaves,
      List.length_append, List.length_singleton]
    by_cases h : (s0.length + 1) % 10 = 0
    · simp [h]
    · simp [h]

/-- **C5, counterexample data.** A 15-package input whose checkpoint already
contains 5 scanned names, leaving 10 pending. -/
def pkgs15 : List Str :=
  [['a'], ['b'], ['c'], ['d'], ['e'], ['f'], ['g'], ['h'], ['i'], ['j'],
    ['k'], ['l'], ['m'], ['n'], ['o']]

def sp5 : ProgressData :=
  ⟨[['a'], ['b'], ['c'], ['d'], ['e']], pkgs15,
    [(['a'], none), (['b'], none), (['c'], none), (['d'], none), (['e'], none)]⟩

def comps10 : List Completion :=
  [⟨['f'], .ok none⟩, ⟨['g'], .ok none⟩, ⟨['h'], .ok none⟩, ⟨['i'], .ok none⟩,
    ⟨['j'], .ok none⟩, ⟨['k'], .ok none⟩, ⟨['l'], .ok none⟩, ⟨['m'], .ok none⟩,
    ⟨['n'], .ok none⟩, ⟨['o'], .ok none⟩]

/-- **C5, counterexample.** In a resumed run the cadence counts the
cumulative `len(scanned_packages)` — checkpointed entries included — not the
completions of this run: resuming a 15-package input with 5 already scanned
and completing the 10 remaining tasks produces exactly one intermediate save,
taken when the cumulative count reaches 10 (i.e. after this run's 5th
completion); no checkpoint is written after this run's 10th completed task
(which "persists after every 10th completed task within the run" would
require). -/
theorem checkpoint_cadence_resumed_counterexample :
    (runScan pkgs15 (some sp5) true comps10 none).saves.map
        (fun pd => pd.scanned_packages.length) = [10] ∧
      comps10.length = 10 := by
  exact ⟨by decide, rfl⟩

/-- **C5, amended.** With no cancellation and no completion raising in the
collection loop, the Coordinator saves the current ScanState exactly at the
completions where the cumulative scanned count (checkpointed entries plus
completions of this run) reaches a multiple of 10 — for a fresh run, after
every 10th completed task — and at natural completion it deletes the
checkpoint and writes the report with no additional save. -/
theorem checkpoint_cadence (packages : List Str) (saved : Option ProgressData)
    (resumeAccept : Bool) (completions : List Completion)
    (hok : ∀ c ∈ completions, c.outcome ≠ TaskOutcome.exn)
    (hpend : pendingOf packages saved resumeAccept ≠ []) :
    (runScan packages saved resumeAccept completions none).saves
        = cadenceSaves packages (initResultsOf saved resumeAccept)
            (initScannedOf saved resumeAccept) completions ∧
      (runScan packages saved resumeAccept completions none).saves.map
          (fun pd => pd.scanned_packages.length)
        = ((List.range completions.length).map
            (fun i => (initScannedOf saved resumeAccept).length + i + 1)).filter
            (fun m => m % 10 == 0) ∧
      (runScan packages saved resumeAccept completions none).removedAfterLoop = true ∧
      (runScan packages saved resumeAccept completions none).reportWritten = true := by
  have h1 : (collectLoop packages none 0 completions
      ⟨initResultsOf saved resumeAccept, initScannedOf saved resumeAccept, []⟩).saves
      = cadenceSaves packages (initResultsOf saved resumeAccept)
          (initScannedOf saved resumeAccept) completions := by
    simpa using collectLoop_saves_ok packages completions 0
      ⟨initResultsOf saved resumeAccept, initScannedOf saved resumeAccept, []⟩ hok
  have h2 : (collectLoop packages none 0 completions
      ⟨initResultsOf saved resumeAccept, initScannedOf saved resumeAccept, []⟩).saves.map
        (fun pd => pd.scanned_packages.length)
      = ((List.range completions.length).map
          (fun i => (initScannedOf saved resumeAccept).length + i + 1)).filter
          (fun m => m % 10 == 0) := by
    rw [h1, cadenceSaves_map_length, lengthSaves_eq]
  rw [runScan_nocancel_eq packages saved resumeAccept completions hpend]
  exact ⟨h1, h2, rfl, rfl⟩

/-- Witness for the amended C5: a fresh run over 25 packages with 25 normal
completions saves exactly twice, after the 10th and the 20th completions. -/
theorem checkpoint_cadence_witness :
    ((∀ c ∈ (List.range 25).map (fun i => (⟨[Char.ofNat (97 + i)], .ok none⟩ : Completion)),
        c.outcome ≠ TaskOutcome.exn) ∧
      pendingOf ((List.range 25).map (fun i => [Char.ofNat (97 + i)])) none false ≠ []) ∧
    (runScan ((List.range 25).map (fun i => [Char.ofNat (97 + i)])) none false
        ((List.range 25).map (fun i => (⟨[Char.ofNat (97 + i)], .ok none⟩ : Completion)))
        none).saves.map (fun pd => pd.scanned_packages.length) = [10, 20] ∧
    (runScan ((List.range 25).map (fun i => [Char.ofNat (97 + i)])) none false
        ((List.range 25).map (fun i => (⟨[Char.ofNat (97 + i)], .ok none⟩ : Completion)))
        none).removedAfterLoop = true := by
  have h := checkpoint_cadence ((List.range 25).map (fun i => [Char.ofNat (97 + i)])) none false
    ((List.range 25).map (fun i => (⟨[Char.ofNat (97 + i)], .ok none⟩ : Completion)))
    (by decide) (by decide)
  exact ⟨⟨by decide, by decide⟩, h.2.1.trans (by decide), h.2.2.1⟩

/-- **C1.** If a run resumes from a loaded checkpoint whose scanned set
contains package `P`, the Coordinator never submits (hence never fetches)
`P`: the pending list is exactly the input list minus the checkpoint's
scanned names, and `P` keeps its checkpointed result in the final results
map. -/
theorem resume_never_refetches (packages : List Str) (sp : ProgressData) (P : Str)
    (completions : List Completion) (cancelAt : Option Nat)
    (hP : P ∈ sp.scanned_packages)
    (hsub : ∀ c ∈ completions, c.pkg ∈ pendingOf packages (some sp) true) :
    pendingOf packages (some sp) true
        = packages.filter (fun p => decide (p ∉ sp.scanned_packages)) ∧
      P ∉ (runScan packages (some sp) true completions cancelAt).submitted ∧
      dictGet (runScan packages (some sp) true completions cancelAt).finalResults P
        = dictGet sp.results P := by
  have hPnot : P ∉ pendingOf packages (some sp) true := by
    intro hmem
    exact pendingOf_not_init packages (some sp) true hmem (by simpa [initScannedOf] using hP)
  have hne : ∀ c ∈ completions, c.pkg ≠ P := by
    intro c hc hcP
    exact hPnot (hcP ▸ hsub c hc)
  have hres : dictGet (collectLoop packages cancelAt 0 completions
      ⟨initResultsOf (some sp) true, initScannedOf (some sp) true, []⟩).results P
      = dictGet sp.results P := by
    rw [(collectLoop_results_scanned packages cancelAt completions 0
      ⟨initResultsOf (some sp) true, initScannedOf (some sp) true, []⟩).1]
    rw [dictGet_resultsAfter_ne _ P completions _ hne]
    simp [initResultsOf]
  refine ⟨rfl, ?_, ?_⟩
  · by_cases hp : pendingOf packages (some sp) true = []
    · rw [runScan_empty_eq packages (some sp) true completions cancelAt hp]
      simp
    · rcases cancelAt with _ | k
      · rw [runScan_nocancel_eq packages (some sp) true completions hp]
        exact hPnot
      · rw [runScan_cancel_eq packages (some sp) true completions k hp]
        exact hPnot
  · by_cases hp : pendingOf packages (some sp) true = []
    · rw [runScan_empty_eq packages (some sp) true completions cancelAt hp]
      simp [initResultsOf]
    · rcases cancelAt with _ | k
      · rw [runScan_nocancel_eq packages (some sp) true completions hp]
        exact hres
      · rw [runScan_cancel_eq packages (some sp) true completions k hp]
        exact hres

/-- Witness for C1: resuming with `a` checkpointed, only `b` pending. -/
theorem resume_never_refetches_witness :
    ((['a'] : Str) ∈ (⟨[['a']], [['a'], ['b']], [(['a'], some [])]⟩ : ProgressData).scanned_packages ∧
      (∀ c ∈ ([⟨['b'], .ok none⟩] : List Completion),
        c.pkg ∈ pendingOf [['a'], ['b']] (some ⟨[['a']], [['a'], ['b']], [(['a'], some [])]⟩) true)) ∧
    (pendingOf [['a'], ['b']] (some ⟨[['a']], [['a'], ['b']], [(['a'], some [])]⟩) true
        = [['a'], ['b']].filter
            (fun p => decide (p ∉ (⟨[['a']], [['a'], ['b']], [(['a'], some [])]⟩ :
              ProgressData).scanned_packages)) ∧
      (['a'] : Str) ∉ (runScan [['a'], ['b']]
          (some ⟨[['a']], [['a'], ['b']], [(['a'], some [])]⟩) true
          [⟨['b'], .ok none⟩] none).submitted ∧
      dictGet (runScan [['a'], ['b']]
          (some ⟨[['a']], [['a'], ['b']], [(['a'], some [])]⟩) true
          [⟨['b'], .ok none⟩] none).finalResults ['a']
        = dictGet (⟨[['a']], [['a'], ['b']], [(['a'], some [])]⟩ : ProgressData).results ['a']) :=
  ⟨⟨by decide, by decide⟩,
    resume_never_refetches [['a'], ['b']] ⟨[['a']], [['a'], ['b']], [(['a'], some [])]⟩
      ['a'] [⟨['b'], .ok none⟩] none (by decide) (by decide)⟩

/-- **C2.** If the interrupt flag is observed by the collection loop (at
check `k`, before all completions are collected), the run: collects exactly
the first `k` completions, saves the current ScanState unconditionally as
the last persisted checkpoint (its scanned list is exactly the resumed
prefix plus the `k` collected packages), does not delete the checkpoint,
writes no report, and exits with code 0. -/
theorem cancellation_saves_and_skips_report (packages : List Str)
    (saved : Option ProgressData) (resumeAccept : Bool)
    (completions : List Completion) (k : Nat)
    (hk : k < completions.length)
    (hpend : pendingOf packages saved resumeAccept ≠ []) :
    (runScan packages saved resumeAccept completions (some k)).reportWritten = false ∧
      (runScan packages saved resumeAccept completions (some k)).exitCode = 0 ∧
      (runScan packages saved resumeAccept completions (some k)).removedAfterLoop = false ∧
      (runScan packages saved resumeAccept completions (some k)).finalScanned
        = scannedAfter (initScannedOf saved resumeAccept) completions k ∧
      (runScan packages saved resumeAccept completions (some k)).saves.getLast?
        = some ⟨scannedAfter (initScannedOf saved resumeAccept) completions k, packages,
            resultsAfter (initResultsOf saved resumeAccept) completions k⟩ := by
  have hst := collectLoop_results_scanned packages (some k) completions 0
    ⟨initResultsOf saved resumeAccept, initScannedOf saved resumeAccept, []⟩
  have hn : processedFrom (some k) 0 completions.length = k := by
    simp only [processedFrom]
    omega
  rw [hn] at hst
  have hst1 : (collectLoop packages (some k) 0 completions
      ⟨initResultsOf saved resumeAccept, initScannedOf saved resumeAccept, []⟩).results
      = resultsAfter (initResultsOf saved resumeAccept) completions k := hst.1
  have hst2 : (collectLoop packages (some k) 0 completions
      ⟨initResultsOf saved resumeAccept, initScannedOf saved resumeAccept, []⟩).scanned
      = scannedAfter (initScannedOf saved resumeAccept) completions k := hst.2
  have hlast : ∀ st : LoopState,
      st.results = resultsAfter (initResultsOf saved resumeAccept) completions k →
      st.scanned = scannedAfter (initScannedOf saved resumeAccept) completions k →
      (st.saves ++ [(⟨st.scanned, packages, st.results⟩ : ProgressData)]).getLast?
        = some ⟨scannedAfter (initScannedOf saved resumeAccept) completions k, packages,
            resultsAfter (initResultsOf saved resumeAccept) completions k⟩ := by
    intro st h1 h2
    rw [h1, h2, List.getLast?_concat]
  rw [runScan_cancel_eq packages saved resumeAccept completions k hpend]
  exact ⟨rfl, rfl, rfl, hst2, hlast _ hst1 hst2⟩

def pkgsC2 : List Str := [['a'], ['b'], ['c']]

def compsC2 : List Completion :=
  [⟨['a'], .ok (some [])⟩, ⟨['b'], .ok none⟩, ⟨['c'], .ok (some [])⟩]

/-- Witness for C2: the spec's scenario — cancellation observed after 2 of 3
tasks complete; the checkpoint holds exactly those 2 entries, no report. -/
theorem cancellation_saves_and_skips_report_witness :
    ((2 : Nat) < compsC2.length ∧ pendingOf pkgsC2 none false ≠ []) ∧
      ((runScan pkgsC2 none false compsC2 (some 2)).reportWritten = false ∧
        (runScan pkgsC2 none false compsC2 (some 2)).exitCode = 0 ∧
        (runScan pkgsC2 none false compsC2 (some 2)).removedAfterLoop = false ∧
        (runScan pkgsC2 none false compsC2 (some 2)).finalScanned
          = scannedAfter (initScannedOf none false) compsC2 2 ∧
        (runScan pkgsC2 none false compsC2 (some 2)).saves.getLast?
          = some ⟨scannedAfter (initScannedOf none false) compsC2 2, pkgsC2,
              resultsAfter (initResultsOf none false) compsC2 2⟩) :=
  ⟨⟨by decide, by decide⟩,
    cancellation_saves_and_skips_report pkgsC2 none false compsC2 2 (by decide) (by decide)⟩

/-- **C3, counterexample.** With a duplicated name in the input list the
Coordinator submits two tasks for it (`future_to_package` is keyed by the
future, not the name) and appends the name to `scanned_packages` twice: the
claimed invariant "no package name appears twice in the scanned-packages
sequence" fails on the concrete run below. -/
theorem scan_state_duplicate_counterexample :
    (runScan [['a'], ['a']] none false
        [⟨['a'], .ok none⟩, ⟨['a'], .ok none⟩] none).finalScanned = [['a'], ['a']] ∧
      ¬ (runScan [['a'], ['a']] none false
          [⟨['a'], .ok none⟩, ⟨['a'], .ok none⟩] none).finalScanned.Nodup := by
  exact ⟨by decide, by decide⟩

/-- **C3, amended.** Provided the input list has no duplicate names (and the
resumed scanned prefix is duplicate-free and drawn from the input list — true
of any checkpoint this program writes from such an input), the ScanState
invariant holds on every control path and at every point of the run
(`cancelAt` ranges over all stopping points, completions over both loop
branches): the scanned sequence is the resumed prefix plus exactly one entry
per collected completion, contains no name twice, and stays inside the
original input list. -/
theorem scan_state_invariant (packages : List Str) (saved : Option ProgressData)
    (resumeAccept : Bool) (completions : List Completion) (cancelAt : Option Nat)
    (hpkgs : packages.Nodup)
    (hinit : ∀ p ∈ initScannedOf saved resumeAccept, p ∈ packages)
    (hinitnd : (initScannedOf saved resumeAccept).Nodup)
    (hperm : List.Perm (completions.map Completion.pkg)
      (pendingOf packages saved resumeAccept)) :
    (runScan packages saved resumeAccept completions cancelAt).finalScanned
        = scannedAfter (initScannedOf saved resumeAccept) completions
            (processedCount cancelAt completions.length) ∧
      (runScan packages saved resumeAccept completions cancelAt).finalScanned.Nodup ∧
      ∀ p ∈ (runScan packages saved resumeAccept completions cancelAt).finalScanned,
        p ∈ packages := by
  by_cases hp : pendingOf packages saved resumeAccept = []
  · have hcomp : completions = [] := by
      rw [hp] at hperm
      exact List.map_eq_nil_iff.mp hperm.eq_nil
    subst hcomp
    rw [runScan_empty_eq packages saved resumeAccept [] cancelAt hp]
    refine ⟨by simp [scannedAfter], ?_, ?_⟩
    · exact hinitnd
    · exact hinit
  · have htailmem : ∀ n, ∀ p ∈ (completions.take n).map Completion.pkg,
        p ∈ pendingOf packages saved resumeAccept := by
      intro n p hp2
      obtain ⟨c, hc, rfl⟩ := List.mem_map.mp hp2
      exact hperm.mem_iff.mp (List.mem_map_of_mem Completion.pkg (List.mem_of_mem_take hc))
    have hmapnd : (completions.map Completion.pkg).Nodup :=
      hperm.nodup_iff.mpr (pendingOf_nodup packages saved resumeAccept hpkgs)
    have htailnd : ∀ n, ((completions.take n).map Completion.pkg).Nodup := by
      intro n
      rw [List.map_take]
      exact hmapnd.sublist (List.take_sublist n _)
    have hscannednd : ∀ n, (scannedAfter (initScannedOf saved resumeAccept)
        completions n).Nodup := by
      intro n
      refine List.Nodup.append hinitnd (htailnd n) ?_
      intro p hps0 hptail
      exact pendingOf_not_init packages saved resumeAccept (htailmem n p hptail) hps0
    have hsub2 : ∀ n, ∀ p ∈ scannedAfter (initScannedOf saved resumeAccept) completions n,
        p ∈ packages := by
      intro n p hp2
      rcases List.mem_append.mp hp2 with h | h
      · exact hinit p h
      · exact pendingOf_subset packages saved resumeAccept (htailmem n p h)
    have hst2 : (collectLoop packages cancelAt 0 completions
        ⟨initResultsOf saved resumeAccept, initScannedOf saved resumeAccept, []⟩).scanned
        = scannedAfter (initScannedOf saved resumeAccept) completions
            (processedCount cancelAt completions.length) :=
      (collectLoop_results_scanned packages cancelAt completions 0
        ⟨initResultsOf saved resumeAccept, initScannedOf saved resumeAccept, []⟩).2
    have h2 : (collectLoop packages cancelAt 0 completions
        ⟨initResultsOf saved resumeAccept, initScannedOf saved resumeAccept, []⟩).scanned.Nodup := by
      rw [hst2]
      exact hscannednd _
    have h3 : ∀ p ∈ (collectLoop packages cancelAt 0 completions
        ⟨initResultsOf saved resumeAccept, initScannedOf saved resumeAccept, []⟩).scanned,
        p ∈ packages := by
      rw [hst2]
      exact hsub2 _
    rcases cancelAt with _ | k
    · rw [runScan_nocancel_eq packages saved resumeAccept completions hp]
      exact ⟨hst2, h2, h3⟩
    · rw [runScan_cancel_eq packages saved resumeAccept completions k hp]
      exact ⟨hst2, h2, h3⟩

def pkgsC3 : List Str := [['a'], ['b']]

def compsC3 : List Completion := [⟨['b'], .ok (some [])⟩, ⟨['a'], .exn⟩]

/-- Witness for the amended C3: a fresh duplicate-free run with one normal
and one exception-branch completion. -/
theorem scan_state_invariant_witness :
    (pkgsC3.Nodup ∧ (∀ p ∈ initScannedOf none false, p ∈ pkgsC3) ∧
      (initScannedOf none false).Nodup ∧
      List.Perm (compsC3.map Completion.pkg) (pendingOf pkgsC3 none false)) ∧
    ((runScan pkgsC3 none false compsC3 none).finalScanned
        = scannedAfter (initScannedOf none false) compsC3
            (processedCount none compsC3.length) ∧
      (runScan pkgsC3 none false compsC3 none).finalScanned.Nodup ∧
      ∀ p ∈ (runScan pkgsC3 none false compsC3 none).finalScanned, p ∈ pkgsC3) :=
  ⟨⟨by decide, by decide, by decide, by decide⟩,
    scan_state_invariant pkgsC3 none false compsC3 none (by decide) (by decide)
      (by decide) (by decide)⟩

/-! ## Progress Store: the checkpoint document (`save_progress` /
`load_progress`, lines 146-167)

`save_progress` builds `{'scanned_packages': …, 'all_packages': …,
'results': …}` and writes it with `json.dump`; `load_progress` reads it
back with `json.load`.  We model the JSON text layer concretely: a
serializer and a (fuel-based, hence kernel-computable) recursive-descent
parser over the characters.  Two deliberate simplifications, irrelevant to
round-trip content: the `indent=2` pretty-printing whitespace is not
emitted (it is content-free), and only the number/escape forms that
`json.dump` itself produces for this document (unsigned integers; the
standard two-character escapes plus `\u00XX` for control characters —
`ensure_ascii=False` keeps other characters verbatim) are modelled. -/

def quoteCh : Char := Char.ofNat 34

def backslashCh : Char := Char.ofNat 92

def lbrace : Char := Char.ofNat 123

def rbrace : Char := Char.ofNat 125

theorem toNat_ofNat_small (n : Nat) (h : n < 55296) : (Char.ofNat n).toNat = n := by
  unfold Char.ofNat Char.toNat
  split
  · rfl
  · exfalso
    exact ‹¬ n.isValidChar› (Or.inl (by omega))

/-! ### Decimal numerals -/

def natDigitsAux : Nat → Nat → Str
  | 0, _ => []
  | fuel + 1, n =>
    if n < 10 then [Char.ofNat (48 + n)]
    else natDigitsAux fuel (n / 10) ++ [Char.ofNat (48 + n % 10)]

def natDigits (n : Nat) : Str := natDigitsAux (n + 1) n

theorem digitsToNat_append_digit (l : Str) (c : Char) :
    digitsToNat (l ++ [c]) = digitsToNat l * 10 + (c.toNat - 48) := by
  simp [digitsToNat, List.foldl_append]

theorem natDigitsAux_spec : ∀ (fuel n : Nat), n < fuel →
    (∃ c cs, natDigitsAux fuel n = c :: cs) ∧
      (∀ c ∈ natDigitsAux fuel n, isDigitCh c = true) ∧
      digitsToNat (natDigitsAux fuel n) = n := by
  intro fuel
  induction fuel with
  | zero => intro n h; omega
  | succ f ih =>
    intro n h
    by_cases h10 : n < 10
    · have htn : (Char.ofNat (48 + n)).toNat = 48 + n := toNat_ofNat_small _ (by omega)
      have hdig : isDigitCh (Char.ofNat (48 + n)) = true := by
        simp only [isDigitCh, decide_eq_true_eq, htn]
        omega
      refine ⟨⟨Char.ofNat (48 + n), [], by simp [natDigitsAux, if_pos h10]⟩, ?_, ?_⟩
      · intro c hc
        simp only [natDigitsAux, if_pos h10, List.mem_singleton] at hc
        exact hc ▸ hdig
      · simp only [natDigitsAux, if_pos h10, digitsToNat, List.foldl_cons, List.foldl_nil]
        omega
    · have hlt : n / 10 < f := by
        have := Nat.div_lt_self (by omega : 0 < n) (by omega : 1 < 10)
        omega
      obtain ⟨⟨c0, cs0, hcons⟩, hall, hval⟩ := ih (n / 10) hlt
      have hm : n % 10 < 10 := Nat.mod_lt n (by omega)
      have htn : (Char.ofNat (48 + n % 10)).toNat = 48 + n % 10 :=
        toNat_ofNat_small _ (by omega)
      have hdig : isDigitCh (Char.ofNat (48 + n % 10)) = true := by
        simp only [isDigitCh, decide_eq_true_eq, htn]
        omega
      refine ⟨⟨c0, cs0 ++ [Char.ofNat (48 + n % 10)], ?_⟩, ?_, ?_⟩
      · simp [natDigitsAux, if_neg h10, hcons]
      · intro c hc
        simp only [natDigitsAux, if_neg h10, List.mem_append, List.mem_singleton] at hc
        rcases hc with hc | hc
        · exact hall c hc
        · exact hc ▸ hdig
      · simp only [natDigitsAux, if_neg h10]
        rw [digitsToNat_append_digit, hval, htn]
        omega

theorem natDigits_cons (n : Nat) : ∃ c cs, natDigits n = c :: cs ∧ isDigitCh c = true := by
  obtain ⟨⟨c, cs, hcons⟩, hall, -⟩ := natDigitsAux_spec (n + 1) n (by omega)
  exact ⟨c, cs, hcons, hall c (hcons ▸ List.mem_cons_self c cs)⟩

theorem natDigits_all_digits (n : Nat) : ∀ c ∈ natDigits n, isDigitCh c = true :=
  (natDigitsAux_spec (n + 1) n (by omega)).2.1

theorem digitsToNat_natDigits (n : Nat) : digitsToNat (natDigits n) = n :=
  (natDigitsAux_spec (n + 1) n (by omega)).2.2

/-- Heads that cannot start another token after a serialized value. -/
def notDigitStart (rest : Str) : Prop :=
  ∀ c, rest.head? = some c → isDigitCh c = false

theorem takeWhile_append_of_all {p : Char → Bool} :
    ∀ (l rest : Str), (∀ c ∈ l, p c = true) → (∀ c, rest.head? = some c → p c = false) →
      (l ++ rest).takeWhile p = l ∧ (l ++ rest).dropWhile p = rest := by
  intro l
  induction l with
  | nil =>
    intro rest _ hrest
    cases rest with
    | nil => simp
    | cons c r =>
      have := hrest c rfl
      simp [List.takeWhile, List.dropWhile, this]
  | cons a l ih =>
    intro rest hall hrest
    have ha : p a = true := hall a (List.mem_cons_self a l)
    have := ih rest (fun c hc => hall c (List.mem_cons_of_mem a hc)) hrest
    simp [List.takeWhile, List.dropWhile, ha, this.1, this.2]

/-- Unsigned decimal literal (the only number form the store's serializer
emits). -/
def parseNum (cs : Str) : Option (Nat × Str) :=
  let ds := cs.takeWhile isDigitCh
  if ds = [] then none else some (digitsToNat ds, cs.dropWhile isDigitCh)

theorem parseNum_natDigits (n : Nat) (rest : Str) (hrest : notDigitStart rest) :
    parseNum (natDigits n ++ rest) = some (n, rest) := by
  obtain ⟨c, cs, hcons, -⟩ := natDigits_cons n
  have hsplit := takeWhile_append_of_all (natDigits n) rest (natDigits_all_digits n) hrest
  simp only [parseNum, hsplit.1, hsplit.2]
  rw [if_neg (by rw [hcons]; exact List.cons_ne_nil c cs), digitsToNat_natDigits]

/-! ### String escaping (the `json.dump` escape table with
`ensure_ascii=False`) and its parser -/

def hexDigitChar (n : Nat) : Char :=
  if n < 10 then Char.ofNat (48 + n) else Char.ofNat (87 + n)

def hexVal? (c : Char) : Option Nat :=
  if 48 ≤ c.toNat ∧ c.toNat ≤ 57 then some (c.toNat - 48)
  else if 97 ≤ c.toNat ∧ c.toNat ≤ 102 then some (c.toNat - 87)
  else if 65 ≤ c.toNat ∧ c.toNat ≤ 70 then some (c.toNat - 55)
  else none

theorem hexVal_hexDigitChar (n : Nat) (h : n < 16) : hexVal? (hexDigitChar n) = some n := by
  interval_cases n <;> decide

def escapeChar (c : Char) : Str :=
  if c = quoteCh then [backslashCh, quoteCh]
  else if c = backslashCh then [backslashCh, backslashCh]
  else if c.toNat = 8 then [backslashCh, 'b']
  else if c.toNat = 9 then [backslashCh, 't']
  else if c.toNat = 10 then [backslashCh, 'n']
  else if c.toNat = 12 then [backslashCh, 'f']
  else if c.toNat = 13 then [backslashCh, 'r']
  else if c.toNat < 32 then
    [backslashCh, 'u', '0', '0', hexDigitChar (c.toNat / 16), hexDigitChar (c.toNat % 16)]
  else [c]

def dumpStringBody (s : Str) : Str := (s.map escapeChar).flatten

def unescapeChar? (e : Char) : Option Char :=
  if e = quoteCh then some quoteCh
  else if e = backslashCh then some backslashCh
  else if e = '/' then some '/'
  else if e = 'b' then some (Char.ofNat 8)
  else if e = 't' then some (Char.ofNat 9)
  else if e = 'n' then some (Char.ofNat 10)
  else if e = 'f' then some (Char.ofNat 12)
  else if e = 'r' then some (Char.ofNat 13)
  else none

def parseStrAux : Nat → Str → Option (Str × Str)
  | 0, _ => none
  | fuel + 1, cs =>
    match cs with
    | [] => none
    | c :: rest =>
      if c = quoteCh then some ([], rest)
      else if c = backslashCh then
        match rest with
        | [] => none
        | e :: rest2 =>
          if e = 'u' then
            match rest2 with
            | h1 :: h2 :: h3 :: h4 :: rest3 =>
              match hexVal? h1, hexVal? h2, hexVal? h3, hexVal? h4 with
              | some a, some b, some x, some y =>
                let n := ((a * 16 + b) * 16 + x) * 16 + y
                if n < 55296 then
                  match parseStrAux fuel rest3 with
                  | some (s, r) => some (Char.ofNat n :: s, r)
                  | none => none
                else none
              | _, _, _, _ => none
            | _ => none
          else
            match unescapeChar? e with
            | none => none
            | some c2 =>
              match parseStrAux fuel rest2 with
              | some (s, r) => some (c2 :: s, r)
              | none => none
      else
        match parseStrAux fuel rest with
        | some (s, r) => some (c :: s, r)
        | none => none

/-- JSON string-body parser (after the opening quote): each group is a raw
character, a two-character escape, or a `\uXXXX` escape; stops at the
closing quote.  One unit of fuel per group; the input length is always
enough fuel. -/
def parseStringBody (cs : Str) : Option (Str × Str) := parseStrAux cs.length cs

theorem parseStrAux_simple_escape (e c2 : Char) (T s r : Str) (fuel : Nat)
    (he : ¬ e = 'u') (hu : unescapeChar? e = some c2)
    (h : parseStrAux fuel T = some (s, r)) :
    parseStrAux (fuel + 1) (backslashCh :: (e :: T)) = some (c2 :: s, r) := by
  simp only [parseStrAux, if_true]
  rw [if_neg he, hu, h, if_neg (by decide : ¬ (backslashCh = quoteCh))]

theorem parseStrAux_escape (c : Char) (T s r : Str) (fuel : Nat)
    (h : parseStrAux fuel T = some (s, r)) :
    parseStrAux (fuel + 1) (escapeChar c ++ T) = some (c :: s, r) := by
  by_cases h1 : c = quoteCh
  · subst h1
    exact parseStrAux_simple_escape quoteCh quoteCh T s r fuel (by decide) (by decide) h
  · by_cases h2 : c = backslashCh
    · subst h2
      exact parseStrAux_simple_escape backslashCh backslashCh T s r fuel
        (by decide) (by decide) h
    · by_cases h3 : c.toNat = 8
      · have hc : c = Char.ofNat 8 := by rw [← h3, Char.ofNat_toNat]
        subst hc
        exact parseStrAux_simple_escape 'b' (Char.ofNat 8) T s r fuel
          (by decide) (by decide) h
      · by_cases h4 : c.toNat = 9
        · have hc : c = Char.ofNat 9 := by rw [← h4, Char.ofNat_toNat]
          subst hc
          exact parseStrAux_simple_escape 't' (Char.ofNat 9) T s r fuel
            (by decide) (by decide) h
        · by_cases h5 : c.toNat = 10
          · have hc : c = Char.ofNat 10 := by rw [← h5, Char.ofNat_toNat]
            subst hc
            exact parseStrAux_simple_escape 'n' (Char.ofNat 10) T s r fuel
              (by decide) (by decide) h
          · by_cases h6 : c.toNat = 12
            · have hc : c = Char.ofNat 12 := by rw [← h6, Char.ofNat_toNat]
              subst hc
              exact parseStrAux_simple_escape 'f' (Char.ofNat 12) T s r fuel
                (by decide) (by decide) h
            · by_cases h7 : c.toNat = 13
              · have hc : c = Char.ofNat 13 := by rw [← h7, Char.ofNat_toNat]
                subst hc
                exact parseStrAux_simple_escape 'r' (Char.ofNat 13) T s r fuel
                  (by decide) (by decide) h
              · by_cases h8 : c.toNat < 32
                · have hesc : escapeChar c = [backslashCh, 'u', '0', '0',
                      hexDigitChar (c.toNat / 16), hexDigitChar (c.toNat % 16)] := by
                    simp only [escapeChar, if_neg h1, if_neg h2, if_neg h3, if_neg h4,
                      if_neg h5, if_neg h6, if_neg h7, if_pos h8]
                  have hm16 : c.toNat % 16 < 16 := Nat.mod_lt _ (by omega)
                  have hv1 : hexVal? (hexDigitChar (c.toNat / 16)) = some (c.toNat / 16) :=
                    hexVal_hexDigitChar _ (by omega)
                  have hv2 : hexVal? (hexDigitChar (c.toNat % 16)) = some (c.toNat % 16) :=
                    hexVal_hexDigitChar _ hm16
                  rw [hesc]
                  simp only [List.cons_append, List.nil_append, parseStrAux, if_true]
                  simp only [show hexVal? '0' = some 0 from by decide, hv1, hv2]
                  have hnv : ((0 * 16 + 0) * 16 + c.toNat / 16) * 16 + c.toNat % 16
                      = c.toNat := by omega
                  rw [hnv, if_pos (by omega : c.toNat < 55296), h, Char.ofNat_toNat,
                    if_neg (by decide : ¬ (backslashCh = quoteCh))]
                · have hesc : escapeChar c = [c] := by
                    simp only [escapeChar, if_neg h1, if_neg h2, if_neg h3, if_neg h4,
                      if_neg h5, if_neg h6, if_neg h7, if_neg h8]
                  rw [hesc, List.cons_append, List.nil_append]
                  simp only [parseStrAux]
                  rw [if_neg h1, if_neg h2, h]

theorem parseStrAux_dump (s : Str) : ∀ (fuel : Nat) (rest : Str), s.length < fuel →
    parseStrAux fuel (dumpStringBody s ++ (quoteCh :: rest)) = some (s, rest) := by
  induction s with
  | nil =>
    intro fuel rest hf
    match fuel, hf with
    | f + 1, _ =>
      simp [dumpStringBody, parseStrAux]
  | cons c s ih =>
    intro fuel rest hf
    match fuel, hf with
    | f + 1, hf =>
      have hstep : dumpStringBody (c :: s) = escapeChar c ++ dumpStringBody s := by
        simp [dumpStringBody]
      rw [hstep, List.append_assoc]
      exact parseStrAux_escape c _ s rest f (ih f rest (by simpa using hf))

theorem escapeChar_length_pos (c : Char) : 1 ≤ (escapeChar c).length := by
  unfold escapeChar
  repeat' split
  all_goals simp

theorem dumpStringBody_length (s : Str) : s.length ≤ (dumpStringBody s).length := by
  induction s with
  | nil => simp [dumpStringBody]
  | cons c s ih =>
    have hstep : dumpStringBody (c :: s) = escapeChar c ++ dumpStringBody s := by
      simp [dumpStringBody]
    rw [hstep, List.length_append, List.length_cons]
    have := escapeChar_length_pos c
    omega

theorem parseStringBody_dump (s rest : Str) :
    parseStringBody (dumpStringBody s ++ (quoteCh :: rest)) = some (s, rest) := by
  apply parseStrAux_dump
  have := dumpStringBody_length s
  simp only [List.length_append, List.length_cons]
  omega

/-! ### JSON documents

A JSON value as stored in the checkpoint file.  Arrays and objects carry
their elements through the auxiliary `JsonList` / `JsonObj` spines (plain
lists, spelled out so that all recursion stays structural). -/

mutual
inductive Json where
  | null : Json
  | str (s : Str) : Json
  | num (n : Nat) : Json
  | arr (items : JsonList) : Json
  | obj (fields : JsonObj) : Json
inductive JsonList where
  | nilA : JsonList
  | consA (head : Json) (tail : JsonList) : JsonList
inductive JsonObj where
  | nilO : JsonObj
  | consO (key : Str) (val : Json) (tail : JsonObj) : JsonObj
end

mutual
def sizeJ : Json → Nat
  | .null => 1
  | .str _ => 1
  | .num _ => 1
  | .arr l => sizeL l + 1
  | .obj o => sizeO o + 1
def sizeL : JsonList → Nat
  | .nilA => 0
  | .consA j l => 1 + max (sizeJ j) (sizeL l)
def sizeO : JsonObj → Nat
  | .nilO => 0
  | .consO _ v o => 1 + max (sizeJ v) (sizeO o)
end

/-! The serializer (`json.dump` without the content-free `indent`
whitespace): key/value pairs and array items separated by commas, strings
quoted and escaped. -/
mutual
def dumpJson : Json → Str
  | .null => ['n', 'u', 'l', 'l']
  | .str s => quoteCh :: (dumpStringBody s ++ [quoteCh])
  | .num n => natDigits n
  | .arr .nilA => ['[', ']']
  | .arr (.consA j l) => '[' :: (dumpJson j ++ dumpArrSep l)
  | .obj .nilO => [lbrace, rbrace]
  | .obj (.consO k v o) =>
    lbrace :: (quoteCh :: (dumpStringBody k ++ (quoteCh :: (':' :: (dumpJson v ++ dumpObjSep o)))))
def dumpArrSep : JsonList → Str
  | .nilA => [']']
  | .consA j l => ',' :: (dumpJson j ++ dumpArrSep l)
def dumpObjSep : JsonObj → Str
  | .nilO => [rbrace]
  | .consO k v o =>
    ',' :: (quoteCh :: (dumpStringBody k ++ (quoteCh :: (':' :: (dumpJson v ++ dumpObjSep o)))))
end

/-! The recursive-descent parser (`json.load` for the subset of documents
the store produces; fuel-based so that it is kernel-computable, one unit of
fuel per nesting step — the input length is always sufficient). -/
mutual
def parseValue : Nat → Str → Option (Json × Str)
  | 0, _ => none
  | fuel + 1, cs =>
    match cs with
    | [] => none
    | c :: cs2 =>
      if c = 'n' then
        match cs2 with
        | 'u' :: 'l' :: 'l' :: rest => some (.null, rest)
        | _ => none
      else if c = quoteCh then
        match parseStringBody cs2 with
        | some (s, rest) => some (.str s, rest)
        | none => none
      else if c = '[' then
        match cs2 with
        | [] => none
        | c2 :: cs3 =>
          if c2 = ']' then some (.arr .nilA, cs3)
          else
            match parseArrItems fuel (c2 :: cs3) with
            | some (l, rest) => some (.arr l, rest)
            | none => none
      else if c = lbrace then
        match cs2 with
        | [] => none
        | c2 :: cs3 =>
          if c2 = rbrace then some (.obj .nilO, cs3)
          else
            match parseObjItems fuel (c2 :: cs3) with
            | some (o, rest) => some (.obj o, rest)
            | none => none
      else if isDigitCh c then
        match parseNum (c :: cs2) with
        | some (n, rest) => some (.num n, rest)
        | none => none
      else none
def parseArrItems : Nat → Str → Option (JsonList × Str)
  | 0, _ => none
  | fuel + 1, cs =>
    match parseValue fuel cs with
    | none => none
    | some (j, cs2) =>
      match cs2 with
      | [] => none
      | c2 :: cs3 =>
        if c2 = ',' then
          match parseArrItems fuel cs3 with
          | some (l, rest) => some (.consA j l, rest)
          | none => none
        else if c2 = ']' then some (.consA j .nilA, cs3)
        else none
def parseObjItems : Nat → Str → Option (JsonObj × Str)
  | 0, _ => none
  | fuel + 1, cs =>
    match cs with
    | [] => none
    | q :: cs1 =>
      if q = quoteCh then
        match parseStringBody cs1 with
        | none => none
        | some (k, cs2) =>
          match cs2 with
          | [] => none
          | c2 :: cs3 =>
            if c2 = ':' then
              match parseValue fuel cs3 with
              | none => none
              | some (v, cs4) =>
                match cs4 with
                | [] => none
                | c3 :: cs5 =>
                  if c3 = ',' then
                    match parseObjItems fuel cs5 with
                    | some (o, rest) => some (.consO k v o, rest)
                    | none => none
                  else if c3 = rbrace then some (.consO k v .nilO, cs5)
                  else none
            else none
      else none
end

/-- `json.load` on a whole document: parse one value and require the input
to be fully consumed. -/
def parseJson (s : Str) : Option Json :=
  match parseValue (s.length + 1) s with
  | some (j, rest) => if rest = [] then some j else none
  | none => none

theorem sizeJ_pos (j : Json) : 1 ≤ sizeJ j := by
  cases j <;> simp [sizeJ]

theorem digit_head_ne (c : Char) (h : isDigitCh c = true) :
    ¬ c = 'n' ∧ ¬ c = quoteCh ∧ ¬ c = '[' ∧ ¬ c = lbrace := by
  simp only [isDigitCh, decide_eq_true_eq] at h
  refine ⟨?_, ?_, ?_, ?_⟩ <;> intro hc <;> subst hc <;> revert h <;> decide

theorem dumpJson_cons (j : Json) : ∃ c cs, dumpJson j = c :: cs ∧ ¬ c = ']' ∧ ¬ c = rbrace := by
  cases j with
  | null => exact ⟨'n', _, rfl, by decide, by decide⟩
  | str s => exact ⟨quoteCh, _, rfl, by decide, by decide⟩
  | num n =>
    obtain ⟨c, cs, hcons, hdig⟩ := natDigits_cons n
    refine ⟨c, cs, hcons, ?_, ?_⟩ <;> intro hc <;> subst hc <;> revert hdig <;> decide
  | arr l =>
    cases l with
    | nilA => exact ⟨'[', _, rfl, by decide, by decide⟩
    | consA j l => exact ⟨'[', _, rfl, by decide, by decide⟩
  | obj o =>
    cases o with
    | nilO => exact ⟨lbrace, _, rfl, by decide, by decide⟩
    | consO k v o => exact ⟨lbrace, _, rfl, by decide, by decide⟩

theorem notDigitStart_cons (c : Char) (h : isDigitCh c = false) (t : Str) :
    notDigitStart (c :: t) := by
  intro c2 h2
  simp only [List.head?_cons, Option.some.injEq] at h2
  exact h2 ▸ h

theorem notDigitStart_arrSep (l : JsonList) (rest : Str) :
    notDigitStart (dumpArrSep l ++ rest) := by
  cases l with
  | nilA => exact notDigitStart_cons ']' (by decide) rest
  | consA j l2 =>
    rw [show dumpArrSep (.consA j l2) = ',' :: (dumpJson j ++ dumpArrSep l2) from rfl,
      List.cons_append]
    exact notDigitStart_cons ',' (by decide) _

theorem notDigitStart_objSep (o : JsonObj) (rest : Str) :
    notDigitStart (dumpObjSep o ++ rest) := by
  cases o with
  | nilO => exact notDigitStart_cons rbrace (by decide) rest
  | consO k v o2 =>
    rw [show dumpObjSep (.consO k v o2)
        = ',' :: (quoteCh :: (dumpStringBody k
          ++ (quoteCh :: (':' :: (dumpJson v ++ dumpObjSep o2))))) from rfl,
      List.cons_append]
    exact notDigitStart_cons ',' (by decide) _

theorem parse_dump_fuel : ∀ fuel : Nat,
    (∀ (j : Json) (rest : Str), sizeJ j ≤ fuel → notDigitStart rest →
      parseValue fuel (dumpJson j ++ rest) = some (j, rest)) ∧
    (∀ (j : Json) (l : JsonList) (rest : Str), max (sizeJ j) (sizeL l) < fuel →
      parseArrItems fuel (dumpJson j ++ (dumpArrSep l ++ rest)) = some (.consA j l, rest)) ∧
    (∀ (k : Str) (v : Json) (o : JsonObj) (rest : Str), max (sizeJ v) (sizeO o) < fuel →
      parseObjItems fuel (quoteCh :: (dumpStringBody k
          ++ (quoteCh :: (':' :: (dumpJson v ++ (dumpObjSep o ++ rest))))))
        = some (.consO k v o, rest)) := by
  intro fuel
  induction fuel with
  | zero =>
    refine ⟨?_, ?_, ?_⟩
    · intro j rest hf
      have := sizeJ_pos j
      omega
    · intro j l rest hf
      omega
    · intro k v o rest hf
      omega
  | succ f ih =>
    refine ⟨?_, ?_, ?_⟩
    · intro j rest hf hrest
      cases j with
      | null =>
        simp only [show dumpJson .null = ['n', 'u', 'l', 'l'] from rfl, List.cons_append,
          List.nil_append, parseValue, if_true]
      | str s =>
        simp only [show dumpJson (.str s) = quoteCh :: (dumpStringBody s ++ [quoteCh])
            from rfl, List.cons_append, List.append_assoc, List.nil_append, parseValue,
          if_true, eq_false (by decide : ¬ (quoteCh = 'n')), if_false, parseStringBody_dump]
      | num n =>
        obtain ⟨c, cs, hcons, hdig⟩ := natDigits_cons n
        have hne := digit_head_ne c hdig
        have hpn := parseNum_natDigits n rest hrest
        rw [hcons, List.cons_append] at hpn
        simp only [show dumpJson (.num n) = natDigits n from rfl, hcons, List.cons_append,
          parseValue, eq_false hne.1, eq_false hne.2.1, eq_false hne.2.2.1,
          eq_false hne.2.2.2, if_false, hdig, if_true, hpn]
      | arr l =>
        cases l with
        | nilA =>
          simp only [show dumpJson (.arr .nilA) = ['[', ']'] from rfl, List.cons_append,
            List.nil_append, parseValue, if_true,
            eq_false (by decide : ¬ (('[' : Char) = 'n')),
            eq_false (by decide : ¬ (('[' : Char) = quoteCh)), if_false]
        | consA j1 l1 =>
          obtain ⟨c, cs, hcons, hne1, hne2⟩ := dumpJson_cons j1
          have harr := (ih.2.1) j1 l1 rest (by
            simp only [sizeJ, sizeL] at hf
            omega)
          have hform : c :: (cs ++ (dumpArrSep l1 ++ rest))
              = dumpJson j1 ++ (dumpArrSep l1 ++ rest) := by
            rw [hcons, List.cons_append]
          simp only [show dumpJson (.arr (.consA j1 l1))
              = '[' :: (dumpJson j1 ++ dumpArrSep l1) from rfl, List.cons_append,
            List.append_assoc, parseValue, if_true,
            eq_false (by decide : ¬ (('[' : Char) = 'n')),
            eq_false (by decide : ¬ (('[' : Char) = quoteCh)), if_false, hcons]
          simp only [eq_false hne1, if_false, hform, harr]
      | obj o =>
        cases o with
        | nilO =>
          simp only [show dumpJson (.obj .nilO) = [lbrace, rbrace] from rfl,
            List.cons_append, List.nil_append, parseValue, if_true,
            eq_false (by decide : ¬ (lbrace = 'n')),
            eq_false (by decide : ¬ (lbrace = quoteCh)),
            eq_false (by decide : ¬ (lbrace = '[')), if_false]
        | consO k1 v1 o1 =>
          have hobj := (ih.2.2) k1 v1 o1 rest (by
            simp only [sizeJ, sizeO] at hf
            omega)
          simp only [List.append_assoc, List.cons_append] at hobj
          simp only [show dumpJson (.obj (.consO k1 v1 o1))
              = lbrace :: (quoteCh :: (dumpStringBody k1
                ++ (quoteCh :: (':' :: (dumpJson v1 ++ dumpObjSep o1))))) from rfl,
            List.cons_append, List.append_assoc, parseValue, if_true,
            eq_false (by decide : ¬ (lbrace = 'n')),
            eq_false (by decide : ¬ (lbrace = quoteCh)),
            eq_false (by decide : ¬ (lbrace = '[')),
            eq_false (by decide : ¬ (quoteCh = rbrace)), if_false]
          simp only [hobj]
    · intro j l rest hf
      have hval := (ih.1) j (dumpArrSep l ++ rest) (by omega) (notDigitStart_arrSep l rest)
      cases l with
      | nilA =>
        simp only [show dumpArrSep .nilA = [']'] from rfl, List.cons_append,
          List.nil_append] at hval
        simp only [parseArrItems, hval, show dumpArrSep .nilA = [']'] from rfl,
          List.cons_append, List.nil_append,
          eq_false (by decide : ¬ ((']' : Char) = ',')), if_false, if_true]
      | consA j2 l2 =>
        have harr := (ih.2.1) j2 l2 rest (by
          simp only [sizeL] at hf
          omega)
        simp only [show dumpArrSep (.consA j2 l2) = ',' :: (dumpJson j2 ++ dumpArrSep l2)
            from rfl, List.cons_append, List.append_assoc] at hval
        simp only [parseArrItems, hval,
          show dumpArrSep (.consA j2 l2) = ',' :: (dumpJson j2 ++ dumpArrSep l2) from rfl,
          List.cons_append, List.append_assoc, if_true, harr]
    · intro k v o rest hf
      have hval := (ih.1) v (dumpObjSep o ++ rest) (by omega) (notDigitStart_objSep o rest)
      cases o with
      | nilO =>
        simp only [show dumpObjSep .nilO = [rbrace] from rfl, List.cons_append,
          List.nil_append] at hval
        simp only [parseObjItems, if_true, parseStringBody_dump, hval,
          show dumpObjSep .nilO = [rbrace] from rfl, List.cons_append, List.nil_append,
          eq_false (by decide : ¬ (rbrace = ',')), if_false]
      | consO k2 v2 o2 =>
        have hobj := (ih.2.2) k2 v2 o2 rest (by
          simp only [sizeO] at hf
          omega)
        simp only [List.append_assoc, List.cons_append] at hobj
        simp only [show dumpObjSep (.consO k2 v2 o2)
            = ',' :: (quoteCh :: (dumpStringBody k2
              ++ (quoteCh :: (':' :: (dumpJson v2 ++ dumpObjSep o2))))) from rfl,
          List.cons_append, List.append_assoc] at hval
        simp only [parseObjItems, if_true, parseStringBody_dump, hval,
          show dumpObjSep (.consO k2 v2 o2)
            = ',' :: (quoteCh :: (dumpStringBody k2
              ++ (quoteCh :: (':' :: (dumpJson v2 ++ dumpObjSep o2))))) from rfl,
          List.cons_append, List.append_assoc, if_false, hobj]

theorem dumpArrSep_length_pos (l : JsonList) : 1 ≤ (dumpArrSep l).length := by
  cases l <;> simp [dumpArrSep]

theorem dumpObjSep_length_pos (o : JsonObj) : 1 ≤ (dumpObjSep o).length := by
  cases o <;> simp [dumpObjSep]

mutual
theorem sizeJ_le_length (j : Json) : sizeJ j ≤ (dumpJson j).length + 1 := by
  cases j with
  | null => simp [sizeJ, dumpJson]
  | str s => simp only [sizeJ]; omega
  | num n => simp only [sizeJ]; omega
  | arr l =>
    cases l with
    | nilA => simp [sizeJ, sizeL, dumpJson]
    | consA j1 l1 =>
      have h1 := sizeJ_le_length j1
      have h2 := sizeL_le_length l1
      have h3 := dumpArrSep_length_pos l1
      simp only [sizeJ, sizeL, show dumpJson (.arr (.consA j1 l1))
          = '[' :: (dumpJson j1 ++ dumpArrSep l1) from rfl,
        List.length_cons, List.length_append]
      omega
  | obj o =>
    cases o with
    | nilO => simp [sizeJ, sizeO, dumpJson]
    | consO k v o1 =>
      have h1 := sizeJ_le_length v
      have h2 := sizeO_le_length o1
      have h3 := dumpObjSep_length_pos o1
      simp only [sizeJ, sizeO, show dumpJson (.obj (.consO k v o1))
          = lbrace :: (quoteCh :: (dumpStringBody k
            ++ (quoteCh :: (':' :: (dumpJson v ++ dumpObjSep o1))))) from rfl,
        List.length_cons, List.length_append]
      omega
theorem sizeL_le_length (l : JsonList) : sizeL l ≤ (dumpArrSep l).length := by
  cases l with
  | nilA => simp [sizeL]
  | consA j1 l1 =>
    have h1 := sizeJ_le_length j1
    have h2 := sizeL_le_length l1
    have h3 := dumpArrSep_length_pos l1
    simp only [sizeL, show dumpArrSep (.consA j1 l1)
        = ',' :: (dumpJson j1 ++ dumpArrSep l1) from rfl,
      List.length_cons, List.length_append]
    omega
theorem sizeO_le_length (o : JsonObj) : sizeO o ≤ (dumpObjSep o).length := by
  cases o with
  | nilO => simp [sizeO]
  | consO k v o1 =>
    have h1 := sizeJ_le_length v
    have h2 := sizeO_le_length o1
    have h3 := dumpObjSep_length_pos o1
    simp only [sizeO, show dumpObjSep (.consO k v o1)
        = ',' :: (quoteCh :: (dumpStringBody k
          ++ (quoteCh :: (':' :: (dumpJson v ++ dumpObjSep o1))))) from rfl,
      List.length_cons, List.length_append]
    omega
end

theorem notDigitStart_nil : notDigitStart [] := by
  intro c h
  cases h

/-- Parsing any serialized document returns exactly that document. -/
theorem parseJson_dumpJson (j : Json) : parseJson (dumpJson j) = some j := by
  have h := (parse_dump_fuel ((dumpJson j).length + 1)).1 j []
    (sizeJ_le_length j) notDigitStart_nil
  rw [List.append_nil] at h
  rw [parseJson, h]
  simp

/-! ### The checkpoint document -/

def encodeVersionInfo (vi : VersionInfo) : Json :=
  .obj (.consO "version".data (.str vi.version)
    (.consO "publish_time".data (.str vi.publish_time)
      (.consO "description".data (.str vi.description)
        (.consO "author".data (.str vi.author)
          (.consO "dependencies".data (.num vi.dependencies) .nilO)))))

def encodeVersions : List VersionInfo → JsonList
  | [] => .nilA
  | vi :: rest => .consA (encodeVersionInfo vi) (encodeVersions rest)

def encodePkgResult : PkgResult → Json
  | none => .null
  | some l => .arr (encodeVersions l)

def encodeResults : ResultsMap → JsonObj
  | [] => .nilO
  | (k, v) :: rest => .consO k (encodePkgResult v) (encodeResults rest)

def encodeStrs : List Str → JsonList
  | [] => .nilA
  | s :: rest => .consA (.str s) (encodeStrs rest)

/-- The document `save_progress` builds (lines 148-152): the `progress_data`
dict with its three keys, in insertion order. -/
def progressDoc (pd : ProgressData) : Json :=
  .obj (.consO "scanned_packages".data (.arr (encodeStrs pd.scanned_packages))
    (.consO "all_packages".data (.arr (encodeStrs pd.all_packages))
      (.consO "results".data (.obj (encodeResults pd.results)) .nilO)))

/-- `save_progress` (lines 146-154): serialize the progress document to the
checkpoint file's text. -/
def save_progress (pd : ProgressData) : Str := dumpJson (progressDoc pd)

/-- `load_progress` (lines 157-167): `None` when the file is missing
(line 159-160); the parsed document, or `None` on a parse failure caught by
the `except` clause (lines 162-167). -/
def load_progress (file : Option Str) : Option Json :=
  match file with
  | none => none
  | some content => parseJson content

def decodeStr? : Json → Option Str
  | .str s => some s
  | _ => none

def decodeStrs? : JsonList → Option (List Str)
  | .nilA => some []
  | .consA j rest =>
    match decodeStr? j, decodeStrs? rest with
    | some s, some l => some (s :: l)
    | _, _ => none

def decodeVersionInfo? : Json → Option VersionInfo
  | .obj (.consO k1 v1 (.consO k2 v2 (.consO k3 v3
      (.consO k4 v4 (.consO k5 v5 .nilO))))) =>
    if k1 = "version".data ∧ k2 = "publish_time".data ∧ k3 = "description".data
        ∧ k4 = "author".data ∧ k5 = "dependencies".data then
      match v1, v2, v3, v4, v5 with
      | .str a, .str b, .str c, .str d, .num n => some ⟨a, b, c, d, n⟩
      | _, _, _, _, _ => none
    else none
  | _ => none

def decodeVersions? : JsonList → Option (List VersionInfo)
  | .nilA => some []
  | .consA j rest =>
    match decodeVersionInfo? j, decodeVersions? rest with
    | some vi, some l => some (vi :: l)
    | _, _ => none

def decodePkgResult? : Json → Option PkgResult
  | .null => some none
  | .arr l => (decodeVersions? l).map some
  | _ => none

def decodeResults? : JsonObj → Option ResultsMap
  | .nilO => some []
  | .consO k v rest =>
    match decodePkgResult? v, decodeResults? rest with
    | some r, some m => some ((k, r) :: m)
    | _, _ => none

/-- Reading the three fields of a loaded checkpoint back into a
`ProgressData` (the shape `main` consumes at lines 301-302). -/
def decodeProgress? : Json → Option ProgressData
  | .obj (.consO k1 (.arr s1) (.consO k2 (.arr s2) (.consO k3 (.obj r) .nilO))) =>
    if k1 = "scanned_packages".data ∧ k2 = "all_packages".data ∧ k3 = "results".data then
      match decodeStrs? s1, decodeStrs? s2, decodeResults? r with
      | some a, some b, some c => some ⟨a, b, c⟩
      | _, _, _ => none
    else none
  | _ => none

theorem decodeStrs_encodeStrs (l : List Str) : decodeStrs? (encodeStrs l) = some l := by
  induction l with
  | nil => rfl
  | cons s rest ih => simp [encodeStrs, decodeStrs?, decodeStr?, ih]

theorem decodeVersionInfo_encode (vi : VersionInfo) :
    decodeVersionInfo? (encodeVersionInfo vi) = some vi := by
  rfl

theorem decodeVersions_encode (l : List VersionInfo) :
    decodeVersions? (encodeVersions l) = some l := by
  induction l with
  | nil => rfl
  | cons vi rest ih => simp [encodeVersions, decodeVersions?, decodeVersionInfo_encode, ih]

theorem decodePkgResult_encode (r : PkgResult) :
    decodePkgResult? (encodePkgResult r) = some r := by
  cases r with
  | none => rfl
  | some l => simp [encodePkgResult, decodePkgResult?, decodeVersions_encode]

theorem decodeResults_encode (m : ResultsMap) :
    decodeResults? (encodeResults m) = some m := by
  induction m with
  | nil => rfl
  | cons kv rest ih =>
    rcases kv with ⟨k, v⟩
    simp [encodeResults, decodeResults?, decodePkgResult_encode, ih]

theorem decodeProgress_progressDoc (pd : ProgressData) :
    decodeProgress? (progressDoc pd) = some pd := by
  rcases pd with ⟨a, b, c⟩
  simp [progressDoc, decodeProgress?, decodeStrs_encodeStrs, decodeResults_encode]

/-- **C4.** `load(save(state)) == state`: for every ScanState, loading the
checkpoint text written by `save_progress` parses back exactly the document
that was saved, and reading its fields yields a state equal to the one
saved. -/
theorem load_of_save (pd : ProgressData) :
    (load_progress (some (save_progress pd))).bind decodeProgress? = some pd ∧
      load_progress (some (save_progress pd)) = some (progressDoc pd) := by
  have h : load_progress (some (save_progress pd)) = some (progressDoc pd) :=
    parseJson_dumpJson (progressDoc pd)
  refine ⟨?_, h⟩
  rw [h]
  exact decodeProgress_progressDoc pd

/-- **C9.** `load_progress` on a missing file returns the absent result, and
on any malformed (unparseable) file content returns exactly what it returns
for a missing file — absent, never a raised error (the model is a total
function). -/
theorem load_absent_on_missing_or_malformed :
    load_progress none = none ∧
      ∀ content : Str, parseJson content = none →
        load_progress (some content) = load_progress none := by
  refine ⟨rfl, ?_⟩
  intro content h
  simp [load_progress, h]

/-- Witness for C9: the malformed one-character content `{` (an unclosed
brace). -/
theorem load_absent_witness :
    parseJson [lbrace] = none ∧ load_progress (some [lbrace]) = load_progress none :=
  ⟨rfl, load_absent_on_missing_or_malformed.2 [lbrace] rfl⟩

end Spider
